import Mathlib

/-!
Verification of the bucket k-d tree core (construction in
src/float/construction.rs, queries in src/fixed/query/nearest_one.rs and
src/fixed/query/nearest_n.rs).

Embedding choices:
* The scalar coordinate type `A` is embedded as `ℤ`.  The fixed-point values of
  the fixed variant are scaled integers and the float variant is idealised to
  exact arithmetic; none of the modelled algorithms divides coordinates, so all
  additions, subtractions, absolute differences and comparisons are exact.
  The unsigned saturating subtraction used in the pruning recurrence is kept
  explicitly as a clamp at zero.  `A::MAX` is kept as an explicit parameter
  `AMAX` of the queries.
* The item type `T` is embedded as `ℕ`; `T::zero()` is `0`.
* The arena (stems and leaves vectors plus `LEAF_OFFSET`-tagged indices) is an
  addressing scheme for a tree; the embedding represents the tree directly as
  an inductive type whose stem nodes carry `split_val` and two children and
  whose leaf nodes carry the list of occupied slots in slot order.
-/

namespace Kiddo

/-- A point, i.e. the array `[A; K]`: coordinate `i` of point `p` is `p i`
(indices at and beyond `K` are never consulted by the algorithms). -/
abbrev Pt : Type := ℕ → ℤ

/-- An occupied slot: a point together with its item identifier. -/
abbrev Pair : Type := Pt × ℕ

/-- Default slot used for total versions of partial array reads. -/
def dfltPair : Pair := (fun _ => 0, 0)

/-- Coordinatewise equality on the first `K` coordinates; this is the array
equality `content_points[i] == query` used by `remove`. -/
def pointEq (K : ℕ) (p q : Pt) : Prop := ∀ i < K, p i = q i

instance (K : ℕ) (p q : Pt) : Decidable (pointEq K p q) := by
  unfold pointEq; infer_instance

/-- Modelled from the spec: the Manhattan distance function used by the query
tests (§6, §8); the distance-function sources are not under src/. -/
def manhattanD (K : ℕ) (q p : Pt) : ℤ := ∑ i ∈ Finset.range K, |q i - p i|

/-- Modelled from the spec: the squared Euclidean distance function (§4.5, §6);
the distance-function sources are not under src/. -/
def sqEuclidD (K : ℕ) (q p : Pt) : ℤ := ∑ i ∈ Finset.range K, (q i - p i) ^ 2

/-- A node of the bucket k-d tree: a stem holds `split_val` and its two
children, a leaf holds its occupied slots in slot order. -/
inductive KdNode : Type
  | leaf (c : List Pair)
  | stem (v : ℤ) (l r : KdNode)

/-- All stored slots of a subtree. -/
def pts : KdNode → List Pair
  | .leaf c => c
  | .stem _ l r => pts l ++ pts r

/-- Comparison of two slots by their coordinate along dimension `d`; this is
the comparator passed to the tandem selection in `split`. -/
def pdLe (d : ℕ) (a b : Pair) : Prop := a.1 d ≤ b.1 d

instance (d : ℕ) : DecidableRel (pdLe d) := fun a b =>
  inferInstanceAs (Decidable (a.1 d ≤ b.1 d))

instance (d : ℕ) : IsTotal Pair (pdLe d) := ⟨fun a b => le_total (a.1 d) (b.1 d)⟩

instance (d : ℕ) : IsTrans Pair (pdLe d) :=
  ⟨fun _ _ _ h h2 => le_trans h h2⟩

/-- Modelled from the spec: `mirror_select_nth_unstable_by` (its source is not
under src/) partially sorts the point and item arrays in tandem about the
pivot index along dimension `d` (§4.3, §9).  We model it as a full tandem sort
by the coordinate along `d`, which satisfies the selection postcondition: the
element at the pivot index is in sorted position, everything before it
compares no greater and everything after compares no smaller. -/
def sortPairs (d : ℕ) (c : List Pair) : List Pair := List.insertionSort (pdLe d) c

/-- The split computation of `split` (construction.rs:147-238): partition the
full leaf about the pivot index `B / 2`, returning the split value (the
coordinate of the pivot element along `d`), the left slots `[0, B/2)` and the
right slots `[B/2, B)`.  The odd and even branches of the source both copy
exactly these two ranges. -/
def splitContent (B d : ℕ) (c : List Pair) : ℤ × List Pair × List Pair :=
  let s := sortPairs d c
  (((s.getD (B / 2) dfltPair).1) d, s.take (B / 2), s.drop (B / 2))

/-- The node-level recursion of `add` (construction.rs:29-78): descend with
`point[d] ≤ split_val → left`; at a full leaf, split it and descend one more
level with the strict rule `point[d] < split_val → left`, then append the pair
at the next free slot. -/
def addNode (K B : ℕ) (q : Pt) (it : ℕ) : KdNode → ℕ → KdNode
  | .stem v l r, d =>
    if q d ≤ v then .stem v (addNode K B q it l ((d + 1) % K)) r
    else .stem v l (addNode K B q it r ((d + 1) % K))
  | .leaf c, d =>
    if c.length = B then
      let sc := splitContent B d c
      if q d < sc.1 then .stem sc.1 (.leaf (sc.2.1 ++ [(q, it)])) (.leaf sc.2.2)
      else .stem sc.1 (.leaf sc.2.1) (.leaf (sc.2.2 ++ [(q, it)]))
    else .leaf (c ++ [(q, it)])

/-- The slot predicate of `remove` (construction.rs:127-128): the slot's point
equals the query coordinatewise and its item equals the requested item. -/
def matchPair (K : ℕ) (q : Pt) (it : ℕ) (pr : Pair) : Prop :=
  pointEq K pr.1 q ∧ pr.2 = it

instance (K : ℕ) (q : Pt) (it : ℕ) (pr : Pair) : Decidable (matchPair K q it pr) := by
  unfold matchPair; infer_instance

/-- The scan loop of `remove` (construction.rs:125-141): walk the occupied
slots; on a match, copy the last occupied slot into the current position and
shrink the leaf, without advancing; otherwise advance.  Returns the remaining
slots and the number of removals. -/
def removeLoopF (K : ℕ) (q : Pt) (it : ℕ) : ℕ → List Pair → ℕ → List Pair × ℕ
  | 0, l, _ => (l, 0)
  | fuel + 1, l, i =>
    if hi : i < l.length then
      if matchPair K q it (l.get ⟨i, hi⟩) then
        let res := removeLoopF K q it fuel ((l.set i (l.getLastD dfltPair)).dropLast) i
        (res.1, res.2 + 1)
      else
        removeLoopF K q it fuel l (i + 1)
    else (l, 0)

/-- Entry point of the scan loop.  The loop terminates because `l.length - i`
strictly decreases at every iteration (a removal shrinks the list, otherwise
the index advances); the fuel `l.length - i` is exactly that measure, so the
fuel never runs out and the fuelled recursion is the while loop itself. -/
def removeLoop (K : ℕ) (q : Pt) (it : ℕ) (l : List Pair) (i : ℕ) : List Pair × ℕ :=
  removeLoopF K q it (l.length - i) l i

/-- The node-level recursion of `remove` (construction.rs:103-145): descend
with `point[d] ≤ split_val → left` to a single leaf and run the scan loop
there. -/
def removeNode (K : ℕ) (q : Pt) (it : ℕ) : KdNode → ℕ → KdNode × ℕ
  | .stem v l r, d =>
    if q d ≤ v then
      let res := removeNode K q it l ((d + 1) % K)
      (.stem v res.1 r, res.2)
    else
      let res := removeNode K q it r ((d + 1) % K)
      (.stem v l res.1, res.2)
  | .leaf c, _ =>
    let res := removeLoop K q it c 0
    (.leaf res.1, res.2)

/-- The tree: root node plus the stored-item counter `size`.  A new tree is a
single empty leaf. -/
structure KdTree where
  root : KdNode
  size : ℕ

def KdTree.new : KdTree := ⟨.leaf [], 0⟩

/-- Public `add` (construction.rs:29-78): insert unconditionally, increment
`size` by one. -/
def KdTree.add (K B : ℕ) (t : KdTree) (q : Pt) (it : ℕ) : KdTree :=
  ⟨addNode K B q it t.root 0, t.size + 1⟩

/-- Public `remove` (construction.rs:103-145): remove every matching slot of
the reached leaf, decrementing `size` once per removal, and return the new
tree with the removal count. -/
def KdTree.remove (K : ℕ) (t : KdTree) (q : Pt) (it : ℕ) : KdTree × ℕ :=
  let res := removeNode K q it t.root 0
  (⟨res.1, t.size - res.2⟩, res.2)

/-- One public mutating operation. -/
inductive Op : Type
  | addOp (q : Pt) (it : ℕ)
  | removeOp (q : Pt) (it : ℕ)

def applyOp (K B : ℕ) (t : KdTree) : Op → KdTree
  | .addOp q it => t.add K B q it
  | .removeOp q it => (t.remove K q it).1

/-- Run a sequence of public operations from a new tree. -/
def runOps (K B : ℕ) (ops : List Op) : KdTree := ops.foldl (applyOp K B) KdTree.new

/-- The count returned by an operation (0 for `add`). -/
def removedOf (K : ℕ) (t : KdTree) : Op → ℕ
  | .addOp _ _ => 0
  | .removeOp q it => (t.remove K q it).2

/-- Sum of the counts returned by all removals along a run. -/
def totalRemoved (K B : ℕ) (t : KdTree) : List Op → ℕ
  | [] => 0
  | op :: rest => removedOf K t op + totalRemoved K B (applyOp K B t op) rest

/-- Number of adds in a sequence of operations. -/
def numAdds : List Op → ℕ
  | [] => 0
  | .addOp _ _ :: rest => numAdds rest + 1
  | .removeOp _ _ :: rest => numAdds rest

/-- The leaf scan of `nearest_one` (`search_content_for_best`,
nearest_one.rs:146-167): update the running best whenever a slot is strictly
closer. -/
def searchContentForBest (q : Pt) (f : Pt → Pt → ℤ) (bi : ℕ) (bd : ℤ) :
    List Pair → ℤ × ℕ
  | [] => (bd, bi)
  | pr :: rest =>
    if f q pr.1 < bd then searchContentForBest q f pr.2 (f q pr.1) rest
    else searchContentForBest q f bi bd rest

/-- The branch-and-bound recursion of `nearest_one`
(`nearest_one_recurse`, nearest_one.rs:59-144): descend into the closer child
first (strict rule `query[d] < split_val → left child is closer`), then enter
the further child only when the updated squared-offset bound `rd` does not
exceed the running best distance.  The unsigned saturating subtraction of the
source clamps the squared-offset increment at zero. -/
def nearestOneRecurse (K : ℕ) (q : Pt) (f : Pt → Pt → ℤ) :
    KdNode → ℕ → ℕ → ℤ → (ℕ → ℤ) → ℤ → ℤ × ℕ
  | .leaf c, _, bi, bd, _, _ => searchContentForBest q f bi bd c
  | .stem v l r, d, bi, bd, off, rd =>
    let oldOff := off d
    let newOff := |q d - v|
    let d2 := (d + 1) % K
    if q d < v then
      let res1 := nearestOneRecurse K q f l d2 bi bd off rd
      let bd2 := if res1.1 < bd then res1.1 else bd
      let bi2 := if res1.1 < bd then res1.2 else bi
      let rd2 := rd + max (newOff * newOff - oldOff * oldOff) 0
      if rd2 ≤ bd2 then
        let res2 := nearestOneRecurse K q f r d2 bi2 bd2 (Function.update off d newOff) rd2
        if res2.1 < bd2 then res2 else (bd2, bi2)
      else (bd2, bi2)
    else
      let res1 := nearestOneRecurse K q f r d2 bi bd off rd
      let bd2 := if res1.1 < bd then res1.1 else bd
      let bi2 := if res1.1 < bd then res1.2 else bi
      let rd2 := rd + max (newOff * newOff - oldOff * oldOff) 0
      if rd2 ≤ bd2 then
        let res2 := nearestOneRecurse K q f l d2 bi2 bd2 (Function.update off d newOff) rd2
        if res2.1 < bd2 then res2 else (bd2, bi2)
      else (bd2, bi2)

/-- Public `nearest_one` (nearest_one.rs:39-56): start with item `T::zero()`,
best distance `A::MAX` (the explicit parameter `AMAX`), all offsets zero and
`rd = 0`. -/
def nearestOne (K : ℕ) (AMAX : ℤ) (q : Pt) (f : Pt → Pt → ℤ) (t : KdNode) : ℤ × ℕ :=
  nearestOneRecurse K q f t 0 0 AMAX (fun _ => 0) 0

/-- Ordering of heap elements by distance. -/
def hLe (a b : ℤ × ℕ) : Prop := a.1 ≤ b.1

instance : DecidableRel hLe := fun a b => inferInstanceAs (Decidable (a.1 ≤ b.1))

instance : IsTotal (ℤ × ℕ) hLe := ⟨fun a b => le_total a.1 b.1⟩

instance : IsTrans (ℤ × ℕ) hLe := ⟨fun _ _ _ h h2 => le_trans h h2⟩

/-- Modelled from the spec: the min-max heap of `nearest_n` comes from an
external crate whose source is not under src/; per §4.6 and the glossary it is
a double-ended priority queue of fixed capacity `qty`.  We model it as an
ascending-sorted list of `(distance, item)` elements, bounded by the capacity. -/
abbrev Heap := List (ℤ × ℕ)

/-- Modelled from the spec: `push` of the fixed-capacity heap (only invoked
while the heap is below capacity). -/
def hPush (e : ℤ × ℕ) (h : Heap) : Heap := List.orderedInsert hLe e h

/-- Modelled from the spec: `replace_max` of the fixed-capacity heap: the
maximum is discarded, the new element inserted, and the heap never grows
beyond its capacity. -/
def hReplaceMax (cap : ℕ) (e : ℤ × ℕ) (h : Heap) : Heap :=
  List.take cap (List.orderedInsert hLe e h.dropLast)

/-- Modelled from the spec: `peek_max` of the ascending heap is its last
element (defaulting like the source's `unwrap` never does on a non-empty
heap). -/
def hMax (h : Heap) : ℤ := (h.getLastD (0, 0)).1

/-- `dist_belongs_in_heap` (nearest_n.rs:97-99): the heap is empty, or the
distance beats the current maximum, or the heap is below capacity. -/
def hBelongs (cap : ℕ) (x : ℤ) (h : Heap) : Bool :=
  h.length == 0 || decide (x < hMax h) || decide (h.length < cap)

/-- One step of the leaf scan of `nearest_n_recurse` (nearest_n.rs:74-93):
an accepted candidate is pushed while below capacity, otherwise it replaces
the maximum. -/
def leafStep (cap : ℕ) (q : Pt) (f : Pt → Pt → ℤ) (h : Heap) (pr : Pair) : Heap :=
  if hBelongs cap (f q pr.1) h then
    if h.length < cap then hPush (f q pr.1, pr.2) h
    else hReplaceMax cap (f q pr.1, pr.2) h
  else h

/-- The recursion of `nearest_n_recurse` (nearest_n.rs:38-95): at a stem visit
the closer child first (strict rule `query[d] < split_val`), entering each
child only when its `child_dist_to_bounds` value belongs in the heap; at a
leaf scan the occupied slots in order.  The helper `child_dist_to_bounds` is
not under src/ and is kept as the parameter `cdb` (per §4.6 its definition is
implementation-defined subject to admissibility). -/
def nearestNRecurse (K cap : ℕ) (q : Pt) (f : Pt → Pt → ℤ) (cdb : KdNode → ℤ) :
    KdNode → ℕ → Heap → Heap
  | .leaf c, _, h => c.foldl (leafStep cap q f) h
  | .stem v l r, d, h =>
    let d2 := (d + 1) % K
    if q d < v then
      let h1 := if hBelongs cap (cdb l) h then nearestNRecurse K cap q f cdb l d2 h else h
      if hBelongs cap (cdb r) h1 then nearestNRecurse K cap q f cdb r d2 h1 else h1
    else
      let h1 := if hBelongs cap (cdb r) h then nearestNRecurse K cap q f cdb r d2 h else h
      if hBelongs cap (cdb l) h1 then nearestNRecurse K cap q f cdb l d2 h1 else h1

/-- Public `nearest_n` (nearest_n.rs:25-36) followed by draining the returned
iterator (`NearestIter::next` pops the minimum repeatedly, nearest_n.rs:18-20),
so the collected result is exactly the ascending heap list. -/
def nearestN (K : ℕ) (q : Pt) (qty : ℕ) (f : Pt → Pt → ℤ) (cdb : KdNode → ℤ)
    (t : KdNode) : Heap :=
  nearestNRecurse K qty q f cdb t 0 []

/-! Observer definitions used to state properties of trees. -/

/-- Number of stored items of a subtree (the sum of `leaf.size` over its
leaves). -/
def treeSize (t : KdNode) : ℕ := (pts t).length

/-- The split value of a stem (0 for a leaf, never used there). -/
def splitValOf : KdNode → ℤ
  | .leaf _ => 0
  | .stem v _ _ => v

/-- The left child of a stem (a leaf is returned unchanged). -/
def childL : KdNode → KdNode
  | .leaf c => .leaf c
  | .stem _ l _ => l

/-- The right child of a stem (a leaf is returned unchanged). -/
def childR : KdNode → KdNode
  | .leaf c => .leaf c
  | .stem _ _ r => r

/-- Whether some stored slot of the subtree carries the given item. -/
def containsItemB (t : KdNode) (it : ℕ) : Bool := (pts t).any (fun pr => pr.2 == it)

/-- Every leaf of the subtree holds at most `B` slots. -/
def leafSizesLEB (B : ℕ) : KdNode → Bool
  | .leaf c => c.length ≤ B
  | .stem _ l r => leafSizesLEB B l && leafSizesLEB B r

/-- Every leaf of the subtree is non-empty. -/
def noEmptyLeafB : KdNode → Bool
  | .leaf c => !c.isEmpty
  | .stem _ l r => noEmptyLeafB l && noEmptyLeafB r

/-- Every leaf of size 0 is the root: either the root itself is a leaf, or
every leaf below it is non-empty. -/
def onlyRootEmptyB : KdNode → Bool
  | .leaf _ => true
  | .stem _ l r => noEmptyLeafB l && noEmptyLeafB r

/-- Whether a sequence of operations consists of adds only. -/
def allAddsB : List Op → Bool
  | [] => true
  | .addOp _ _ :: rest => allAddsB rest
  | .removeOp _ _ :: _ => false

/-- The content of the single leaf reached by the `≤ → left` stem descent used
by `remove` (construction.rs:108-120). -/
def descentLeaf (K : ℕ) (q : Pt) : KdNode → ℕ → List Pair
  | .leaf c, _ => c
  | .stem v l r, d =>
    if q d ≤ v then descentLeaf K q l ((d + 1) % K) else descentLeaf K q r ((d + 1) % K)

/-- The tree with the content of the leaf reached by the `≤ → left` descent
replaced, all stems and other leaves untouched. -/
def replaceDescentLeaf (K : ℕ) (q : Pt) : KdNode → ℕ → List Pair → KdNode
  | .leaf _, _, c2 => .leaf c2
  | .stem v l r, d, c2 =>
    if q d ≤ v then .stem v (replaceDescentLeaf K q l ((d + 1) % K) c2) r
    else .stem v l (replaceDescentLeaf K q r ((d + 1) % K) c2)

/-- Number of slots of a list matching the removal predicate. -/
def countMatches (K : ℕ) (q : Pt) (it : ℕ) (l : List Pair) : ℕ :=
  l.countP (fun pr => decide (matchPair K q it pr))

/-- A constant point (the same value in every coordinate); used for concrete
one-dimensional instances. -/
def cpt (x : ℤ) : Pt := fun _ => x

/-- Ascending sort of a list of distances: the reference ordering of the
exhaustive linear scan, whose first `k` entries are the k smallest
distances. -/
def sortD (l : List ℤ) : List ℤ := List.insertionSort (· ≤ ·) l

/-- A box: a per-dimension predicate delimiting the region a subtree is
responsible for. -/
abbrev Box : Type := ℕ → ℤ → Prop

/-- Well-formedness of a subtree with respect to a box and the entry split
dimension: each stem's split value lies inside the box along its dimension,
the left child is well-formed in the box narrowed from above by the split
value, the right child in the box narrowed from below, and every leaf point
lies in the box on every coordinate below `K`.  This is the descent/partition
invariant maintained by `add`, `split` and `remove`. -/
def WF (K : ℕ) : Box → ℕ → KdNode → Prop
  | box, _, .leaf c => ∀ pr ∈ c, ∀ i < K, box i (pr.1 i)
  | box, d, .stem v l r =>
    box d v ∧
    WF K (fun i x => box i x ∧ (i = d → x ≤ v)) ((d + 1) % K) l ∧
    WF K (fun i x => box i x ∧ (i = d → v ≤ x)) ((d + 1) % K) r

/-- The unconstrained box of the root. -/
def topBox : Box := fun _ _ => True

/-- Compatibility of an offset array with a box: every offset is non-negative
and bounds from below the axis distance from the query to every value the box
allows on that dimension.  In `nearest_one_recurse`, `off` is compatible with
the box of the subtree currently visited. -/
def Compat (K : ℕ) (q : Pt) (off : ℕ → ℤ) (box : Box) : Prop :=
  ∀ i < K, 0 ≤ off i ∧ ∀ x : ℤ, box i x → off i ≤ |q i - x|

/-- The admissibility contract tying a distance function to the squared-offset
pruning bound of `nearest_one_recurse` (the §6 distance-function contract):
whenever every per-axis offset is non-negative and bounded by the axis
distance from the query to a stored point, the sum of squared offsets must not
exceed the distance to that point.  Squared Euclidean distance satisfies this
unconditionally; Manhattan distance does not in general. -/
def DomBound (K : ℕ) (q : Pt) (f : Pt → Pt → ℤ) (P : List Pair) : Prop :=
  ∀ pr ∈ P, ∀ off : ℕ → ℤ,
    (∀ i < K, 0 ≤ off i ∧ off i ≤ |q i - pr.1 i|) →
    (∑ i ∈ Finset.range K, (off i) ^ 2) ≤ f q pr.1

/-! ### Basic structural lemmas -/

@[simp] lemma pts_leaf (c : List Pair) : pts (.leaf c) = c := rfl

@[simp] lemma pts_stem (v : ℤ) (l r : KdNode) : pts (.stem v l r) = pts l ++ pts r := rfl

lemma sortPairs_perm (d : ℕ) (c : List Pair) : (sortPairs d c).Perm c :=
  List.perm_insertionSort _ _

@[simp] lemma sortPairs_length (d : ℕ) (c : List Pair) :
    (sortPairs d c).length = c.length :=
  (sortPairs_perm d c).length_eq

lemma splitContent_parts_length (B d : ℕ) (c : List Pair) (h : c.length = B) :
    (splitContent B d c).2.1.length = B / 2 ∧
      (splitContent B d c).2.2.length = B - B / 2 := by
  constructor
  · simp [splitContent, h, Nat.div_le_self]
  · simp [splitContent, h]

lemma splitContent_append (B d : ℕ) (c : List Pair) :
    (splitContent B d c).2.1 ++ (splitContent B d c).2.2 = sortPairs d c := by
  simp [splitContent]

/-- The stored slots of `addNode` are those of the old node plus the new pair
(as a multiset). -/
lemma addNode_pts_perm (K B : ℕ) (q : Pt) (it : ℕ) :
    ∀ (t : KdNode) (d : ℕ), (pts (addNode K B q it t d)).Perm ((q, it) :: pts t) := by
  intro t
  induction t with
  | leaf c =>
    intro d
    by_cases h : c.length = B
    · have hlr : ((splitContent B d c).2.1 ++ (splitContent B d c).2.2).Perm c :=
        (splitContent_append B d c).symm ▸ sortPairs_perm d c
      simp only [addNode, if_pos h]
      by_cases hq : q d < (splitContent B d c).1
      · simp only [if_pos hq, pts_stem, pts_leaf]
        refine List.Perm.trans ?_ (hlr.cons (q, it))
        refine List.Perm.trans (List.Perm.append_right _
          (List.perm_append_singleton (q, it) _)) ?_
        exact List.Perm.refl _
      · simp only [if_neg hq, pts_stem, pts_leaf]
        refine List.Perm.trans ?_ (hlr.cons (q, it))
        refine List.Perm.trans (List.Perm.append_left _
          (List.perm_append_singleton (q, it) _)) ?_
        exact List.perm_middle
    · simp only [addNode, if_neg h, pts_leaf]
      exact List.perm_append_singleton _ _
  | stem v l r ihl ihr =>
    intro d
    simp only [addNode]
    by_cases hq : q d ≤ v
    · simpa [hq] using (ihl ((d + 1) % K)).append_right (pts r)
    · simp only [if_neg hq, pts_stem]
      exact ((ihr ((d + 1) % K)).append_left (pts l)).trans List.perm_middle

lemma addNode_pts_length (K B : ℕ) (q : Pt) (it : ℕ) (t : KdNode) (d : ℕ) :
    (pts (addNode K B q it t d)).length = (pts t).length + 1 := by
  simpa using (addNode_pts_perm K B q it t d).length_eq

/-- The scan loop shortens the slot list by exactly the number of removals. -/
lemma removeLoopF_length (K : ℕ) (q : Pt) (it : ℕ) :
    ∀ (fuel : ℕ) (l : List Pair) (i : ℕ),
      (removeLoopF K q it fuel l i).1.length + (removeLoopF K q it fuel l i).2 = l.length := by
  intro fuel
  induction fuel with
  | zero => intro l i; simp [removeLoopF]
  | succ fuel ih =>
    intro l i
    simp only [removeLoopF]
    by_cases hi : i < l.length
    · simp only [dif_pos hi]
      by_cases hm : matchPair K q it (l.get ⟨i, hi⟩)
      · simp only [if_pos hm]
        have := ih ((l.set i (l.getLastD dfltPair)).dropLast) i
        simp only [List.length_dropLast, List.length_set] at this
        omega
      · simp only [if_neg hm]
        exact ih l (i + 1)
    · simp [dif_neg hi]

lemma removeNode_pts_length (K : ℕ) (q : Pt) (it : ℕ) :
    ∀ (t : KdNode) (d : ℕ),
      (pts (removeNode K q it t d).1).length + (removeNode K q it t d).2 = (pts t).length := by
  intro t
  induction t with
  | leaf c =>
    intro d
    simpa [removeNode, removeLoop] using removeLoopF_length K q it (c.length - 0) c 0
  | stem v l r ihl ihr =>
    intro d
    simp only [removeNode]
    by_cases hq : q d ≤ v
    · simp only [if_pos hq, pts_stem, List.length_append]
      have := ihl ((d + 1) % K)
      omega
    · simp only [if_neg hq, pts_stem, List.length_append]
      have := ihr ((d + 1) % K)
      omega

/-- The stored `size` counter always equals the number of stored slots. -/
lemma runOps_size_eq (K B : ℕ) (ops : List Op) :
    ∀ (t : KdTree), t.size = treeSize t.root →
      (ops.foldl (applyOp K B) t).size = treeSize (ops.foldl (applyOp K B) t).root := by
  induction ops with
  | nil => intro t h; exact h
  | cons op rest ih =>
    intro t h
    refine ih _ ?_
    cases op with
    | addOp p j =>
      simp only [applyOp, KdTree.add, treeSize] at *
      rw [addNode_pts_length, ← h]
    | removeOp p j =>
      simp only [applyOp, KdTree.remove, treeSize] at *
      have := removeNode_pts_length K p j t.root 0
      omega

/-- CLAIM C6.  After every sequence of public operations starting from a new
tree, `size()` equals the number of `add` calls performed minus the sum of the
counts returned by all `remove` calls: rearranged without truncated
subtraction, the final size plus the total of the returned removal counts
equals the number of adds. -/
theorem size_accounting (K B : ℕ) (ops : List Op) :
    (runOps K B ops).size + totalRemoved K B KdTree.new ops = numAdds ops := by
  suffices h : ∀ (ops : List Op) (t : KdTree), t.size = treeSize t.root →
      (ops.foldl (applyOp K B) t).size + totalRemoved K B t ops = numAdds ops + t.size by
    simpa [runOps] using h ops KdTree.new rfl
  intro ops
  induction ops with
  | nil => intro t _; simp [totalRemoved, numAdds]
  | cons op rest ih =>
    intro t h
    cases op with
    | addOp p j =>
      have hnext : (t.add K B p j).size = treeSize (t.add K B p j).root := by
        simp only [KdTree.add, treeSize] at *
        rw [addNode_pts_length, ← h]
      have := ih (t.add K B p j) hnext
      simp only [List.foldl_cons, applyOp, totalRemoved, removedOf, numAdds] at *
      simp only [KdTree.add] at *
      omega
    | removeOp p j =>
      have hc := removeNode_pts_length K p j t.root 0
      have hnext : ((t.remove K p j).1).size = treeSize ((t.remove K p j).1).root := by
        simp only [KdTree.remove, treeSize] at *
        omega
      have := ih ((t.remove K p j).1) hnext
      simp only [List.foldl_cons, applyOp, totalRemoved, removedOf, numAdds] at *
      simp only [KdTree.remove, treeSize] at *
      omega

/-! ### Empty-tree behaviour of nearest_one (C8) -/

lemma nearestOneRecurse_pts_nil (K : ℕ) (q : Pt) (f : Pt → Pt → ℤ) :
    ∀ (t : KdNode), pts t = [] → ∀ (d bi : ℕ) (bd : ℤ) (off : ℕ → ℤ) (rd : ℤ),
      nearestOneRecurse K q f t d bi bd off rd = (bd, bi) := by
  intro t
  induction t with
  | leaf c =>
    intro h d bi bd off rd
    simp only [pts_leaf] at h
    subst h
    rfl
  | stem v l r ihl ihr =>
    intro h d bi bd off rd
    rw [pts_stem, List.append_eq_nil] at h
    obtain ⟨hl, hr⟩ := h
    by_cases hq : q d < v
    · simp [nearestOneRecurse, hq, ihl hl, ihr hr]
    · simp [nearestOneRecurse, hq, ihl hl, ihr hr]

/-- CLAIM C8.  `nearest_one` on a tree holding no items (no `add` performed, or
`size()` equal to 0) returns the pair of the sentinel maximum `A::MAX` and the
numeric zero of the item type. -/
theorem nearest_one_empty_tree (K B : ℕ) (ops : List Op) (AMAX : ℤ) (q : Pt)
    (f : Pt → Pt → ℤ) (h : (runOps K B ops).size = 0) :
    nearestOne K AMAX q f (runOps K B ops).root = (AMAX, 0) := by
  have hs : treeSize (runOps K B ops).root = 0 := by
    have := runOps_size_eq K B ops KdTree.new rfl
    simpa [runOps, h] using this.symm.trans h
  have hp : pts (runOps K B ops).root = [] := List.length_eq_zero.mp hs
  exact nearestOneRecurse_pts_nil K q f _ hp 0 0 AMAX (fun _ => 0) 0

/-- Witness for C8: two adds followed by removals of both pairs empty the
tree, and the query then returns the sentinel pair. -/
theorem nearest_one_empty_tree_witness :
    (runOps 1 2 [.addOp (cpt 1) 5, .addOp (cpt 3) 6, .removeOp (cpt 1) 5,
        .removeOp (cpt 3) 6]).size = 0 ∧
      nearestOne 1 99 (cpt 2) (manhattanD 1)
        (runOps 1 2 [.addOp (cpt 1) 5, .addOp (cpt 3) 6, .removeOp (cpt 1) 5,
          .removeOp (cpt 3) 6]).root = (99, 0) :=
  ⟨by decide, nearest_one_empty_tree 1 2 _ 99 (cpt 2) (manhattanD 1) (by decide)⟩

/-! ### nearest_n with qty = 0 (C10) -/

lemma leafStep_cap_zero (q : Pt) (f : Pt → Pt → ℤ) (pr : Pair) :
    leafStep 0 q f [] pr = [] := rfl

lemma foldl_leafStep_cap_zero (q : Pt) (f : Pt → Pt → ℤ) :
    ∀ (c : List Pair), c.foldl (leafStep 0 q f) [] = [] := by
  intro c
  induction c with
  | nil => rfl
  | cons pr rest ih => simpa [leafStep_cap_zero] using ih

lemma nearestNRecurse_cap_zero (K : ℕ) (q : Pt) (f : Pt → Pt → ℤ) (cdb : KdNode → ℤ) :
    ∀ (t : KdNode) (d : ℕ), nearestNRecurse K 0 q f cdb t d [] = [] := by
  intro t
  induction t with
  | leaf c => intro d; simpa [nearestNRecurse] using foldl_leafStep_cap_zero q f c
  | stem v l r ihl ihr =>
    intro d
    by_cases hq : q d < v
    · simp [nearestNRecurse, hq, ihl, ihr]
    · simp [nearestNRecurse, hq, ihl, ihr]

/-- CLAIM C10.  For every tree, query point and distance function, requesting
zero nearest neighbours yields no result pairs: the collected output of
`nearest_n(query, 0, dist_fn)` is empty. -/
theorem nearest_n_zero_qty (K : ℕ) (q : Pt) (f : Pt → Pt → ℤ) (cdb : KdNode → ℤ)
    (t : KdNode) : nearestN K q 0 f cdb t = [] :=
  nearestNRecurse_cap_zero K q f cdb t 0

/-! ### The split partition and the post-split descent (C4, C5, C9) -/

lemma splitContent_left_subset (B d : ℕ) (c : List Pair) :
    ∀ pr ∈ (splitContent B d c).2.1, pr ∈ c := by
  intro pr h
  have h1 : pr ∈ sortPairs d c := (List.take_sublist _ _).subset h
  exact (sortPairs_perm d c).mem_iff.mp h1

lemma splitContent_right_subset (B d : ℕ) (c : List Pair) :
    ∀ pr ∈ (splitContent B d c).2.2, pr ∈ c := by
  intro pr h
  have h1 : pr ∈ sortPairs d c := (List.drop_sublist _ _).subset h
  exact (sortPairs_perm d c).mem_iff.mp h1

lemma getD_mem_drop (s : List Pair) (n : ℕ) (h : n < s.length) :
    s.getD n dfltPair ∈ s.drop n := by
  rw [List.getD_eq_getElem s dfltPair h, List.drop_eq_getElem_cons h]
  exact List.mem_cons_self _ _

/-- COUNTEREXAMPLE for C4.  With K = 1, B = 2, after adding points 1, 2 the
third add of a point with coordinate exactly equal to the resulting split
value 2 triggers a split and the pair is inserted into the RIGHT child, even
though the claim says a coordinate equal to `split_val` goes left. -/
theorem add_split_tie_goes_right_counterexample :
    splitValOf (runOps 1 2 [.addOp (cpt 1) 0, .addOp (cpt 2) 1, .addOp (cpt 2) 2]).root = 2 ∧
    cpt 2 0 ≤ 2 ∧
    containsItemB (childL (runOps 1 2 [.addOp (cpt 1) 0, .addOp (cpt 2) 1,
      .addOp (cpt 2) 2]).root) 2 = false ∧
    containsItemB (childR (runOps 1 2 [.addOp (cpt 1) 0, .addOp (cpt 2) 1,
      .addOp (cpt 2) 2]).root) 2 = true := by
  decide

/-- CLAIM C4 (amended).  When `add` splits a full leaf, the subsequent
one-level descent from the new stem uses the strict rule of the source
(construction.rs:59): the pair is inserted into the left child iff
`point[split_dim] < split_val`; a point with coordinate exactly equal to
`split_val` goes right. -/
theorem add_split_descent_strict (K B d : ℕ) (q : Pt) (it : ℕ) (c : List Pair)
    (hlen : c.length = B) (hfresh : ∀ pr ∈ c, pr.2 ≠ it) :
    splitValOf (addNode K B q it (.leaf c) d) = (splitContent B d c).1 ∧
    (containsItemB (childL (addNode K B q it (.leaf c) d)) it = true ↔
      q d < (splitContent B d c).1) ∧
    (containsItemB (childR (addNode K B q it (.leaf c) d)) it = true ↔
      ¬ q d < (splitContent B d c).1) := by
  have hfl : ∀ pr ∈ (splitContent B d c).2.1, ¬ pr.2 = it :=
    fun pr h => hfresh pr (splitContent_left_subset B d c pr h)
  have hfr : ∀ pr ∈ (splitContent B d c).2.2, ¬ pr.2 = it :=
    fun pr h => hfresh pr (splitContent_right_subset B d c pr h)
  by_cases hq : q d < (splitContent B d c).1
  · simp only [addNode, if_pos hlen, if_pos hq, splitValOf, childL, childR]
    refine ⟨trivial, ?_, ?_⟩
    · simp only [containsItemB, pts_leaf, List.any_eq_true, beq_iff_eq]
      constructor
      · intro _; exact hq
      · intro _; exact ⟨(q, it), by simp, rfl⟩
    · simp only [containsItemB, pts_leaf, List.any_eq_true, beq_iff_eq]
      constructor
      · rintro ⟨pr, hm, he⟩; exact absurd he (hfr pr hm)
      · intro h; exact absurd hq h
  · simp only [addNode, if_pos hlen, if_neg hq, splitValOf, childL, childR]
    refine ⟨trivial, ?_, ?_⟩
    · simp only [containsItemB, pts_leaf, List.any_eq_true, beq_iff_eq]
      constructor
      · rintro ⟨pr, hm, he⟩; exact absurd he (hfl pr hm)
      · intro h; exact absurd h hq
    · simp only [containsItemB, pts_leaf, List.any_eq_true, beq_iff_eq]
      constructor
      · intro _; exact hq
      · intro _; exact ⟨(q, it), by simp, rfl⟩

/-- Witness for the amended C4: with K = 1, B = 2 and the full leaf holding
points 1 and 2, adding point 2 (equal to the split value 2) goes right. -/
theorem add_split_descent_strict_witness :
    [((cpt 1 : Pt), 0), (cpt 2, 1)].length = 2 ∧
    (∀ pr ∈ [((cpt 1 : Pt), 0), (cpt 2, 1)], pr.2 ≠ 2) ∧
    (splitValOf (addNode 1 2 (cpt 2) 2 (.leaf [(cpt 1, 0), (cpt 2, 1)]) 0) =
      (splitContent 2 0 [(cpt 1, 0), (cpt 2, 1)]).1 ∧
    (containsItemB (childL (addNode 1 2 (cpt 2) 2 (.leaf [(cpt 1, 0), (cpt 2, 1)]) 0)) 2 = true ↔
      cpt 2 0 < (splitContent 2 0 [(cpt 1, 0), (cpt 2, 1)]).1) ∧
    (containsItemB (childR (addNode 1 2 (cpt 2) 2 (.leaf [(cpt 1, 0), (cpt 2, 1)]) 0)) 2 = true ↔
      ¬ cpt 2 0 < (splitContent 2 0 [(cpt 1, 0), (cpt 2, 1)]).1)) :=
  ⟨by decide, by decide,
    add_split_descent_strict 1 2 0 (cpt 2) 2 [(cpt 1, 0), (cpt 2, 1)] (by decide) (by decide)⟩

/-- CLAIM C5.  When `add` splits a full leaf holding exactly `B` pairs at
dimension `d`: the left child receives slots `[0, B/2)` and the right child
slots `[B/2, B)` of the partitioned array (which is a permutation of the leaf
content), the median element lands in the right child and its coordinate
along `d` is the split value, neither side exceeds `B`, and immediately after
the triggering insertion the two children's sizes sum to `B + 1`. -/
theorem split_partition (K B d : ℕ) (q : Pt) (it : ℕ) (c : List Pair)
    (hlen : c.length = B) (hB : 1 ≤ B) :
    (splitContent B d c).2.1 = (sortPairs d c).take (B / 2) ∧
    (splitContent B d c).2.2 = (sortPairs d c).drop (B / 2) ∧
    (sortPairs d c).Perm c ∧
    (splitContent B d c).2.1.length = B / 2 ∧
    (splitContent B d c).2.2.length = B - B / 2 ∧
    ((sortPairs d c).getD (B / 2) dfltPair) ∈ (splitContent B d c).2.2 ∧
    ((sortPairs d c).getD (B / 2) dfltPair).1 d = (splitContent B d c).1 ∧
    (splitContent B d c).2.1.length ≤ B ∧
    (splitContent B d c).2.2.length ≤ B ∧
    treeSize (childL (addNode K B q it (.leaf c) d)) +
      treeSize (childR (addNode K B q it (.leaf c) d)) = B + 1 := by
  obtain ⟨hl, hr⟩ := splitContent_parts_length B d c hlen
  have hBd : B / 2 < B := Nat.div_lt_self (by omega) (by omega)
  have hslen : (sortPairs d c).length = B := by rw [sortPairs_length, hlen]
  refine ⟨rfl, rfl, sortPairs_perm d c, hl, hr, ?_, rfl, by omega, by omega, ?_⟩
  · exact getD_mem_drop _ _ (by omega)
  · by_cases hq : q d < (splitContent B d c).1
    · simp only [addNode, if_pos hlen, if_pos hq, childL, childR, treeSize,
        pts_leaf, List.length_append, List.length_singleton]
      omega
    · simp only [addNode, if_pos hlen, if_neg hq, childL, childR, treeSize,
        pts_leaf, List.length_append, List.length_singleton]
      omega

/-- Witness for C5 at K = 1, B = 2 with the full leaf holding points 1 and 2. -/
theorem split_partition_witness :
    [((cpt 1 : Pt), 0), (cpt 2, 1)].length = 2 ∧ 1 ≤ 2 ∧
    ((splitContent 2 0 [(cpt 1, 0), (cpt 2, 1)]).2.1 =
        (sortPairs 0 [(cpt 1, 0), (cpt 2, 1)]).take 1 ∧
      (splitContent 2 0 [(cpt 1, 0), (cpt 2, 1)]).2.2 =
        (sortPairs 0 [(cpt 1, 0), (cpt 2, 1)]).drop 1 ∧
      (sortPairs 0 [(cpt 1, 0), (cpt 2, 1)]).Perm [(cpt 1, 0), (cpt 2, 1)] ∧
      (splitContent 2 0 [(cpt 1, 0), (cpt 2, 1)]).2.1.length = 1 ∧
      (splitContent 2 0 [(cpt 1, 0), (cpt 2, 1)]).2.2.length = 1 ∧
      ((sortPairs 0 [(cpt 1, 0), (cpt 2, 1)]).getD 1 dfltPair) ∈
        (splitContent 2 0 [(cpt 1, 0), (cpt 2, 1)]).2.2 ∧
      ((sortPairs 0 [(cpt 1, 0), (cpt 2, 1)]).getD 1 dfltPair).1 0 =
        (splitContent 2 0 [(cpt 1, 0), (cpt 2, 1)]).1 ∧
      (splitContent 2 0 [(cpt 1, 0), (cpt 2, 1)]).2.1.length ≤ 2 ∧
      (splitContent 2 0 [(cpt 1, 0), (cpt 2, 1)]).2.2.length ≤ 2 ∧
      treeSize (childL (addNode 1 2 (cpt 3) 7 (.leaf [(cpt 1, 0), (cpt 2, 1)]) 0)) +
        treeSize (childR (addNode 1 2 (cpt 3) 7 (.leaf [(cpt 1, 0), (cpt 2, 1)]) 0)) = 3) :=
  ⟨by decide, by decide, split_partition 1 2 0 (cpt 3) 7 _ (by decide) (by decide)⟩

/-- CLAIM C9.  For bucket capacity `B ≥ 2`, each of the two leaves produced by
a split holds at most the rounded-up half of `B`, strictly fewer than `B`
entries, so the append performed by `add` right after the split writes at a
slot index strictly below `B` and stays in bounds: both children's sizes
remain at most `B` after the insertion. -/
theorem split_leaves_under_capacity (K B d : ℕ) (q : Pt) (it : ℕ) (c : List Pair)
    (hB : 2 ≤ B) (hlen : c.length = B) :
    (splitContent B d c).2.1.length ≤ (B + 1) / 2 ∧
    (splitContent B d c).2.2.length ≤ (B + 1) / 2 ∧
    (splitContent B d c).2.1.length < B ∧
    (splitContent B d c).2.2.length < B ∧
    treeSize (childL (addNode K B q it (.leaf c) d)) ≤ B ∧
    treeSize (childR (addNode K B q it (.leaf c) d)) ≤ B := by
  obtain ⟨hl, hr⟩ := splitContent_parts_length B d c hlen
  refine ⟨by omega, by omega, by omega, by omega, ?_, ?_⟩ <;>
    by_cases hq : q d < (splitContent B d c).1
  all_goals first
    | (simp only [addNode, if_pos hlen, if_pos hq, childL, childR, treeSize,
        pts_leaf, List.length_append, List.length_singleton]
       omega)
    | (simp only [addNode, if_pos hlen, if_neg hq, childL, childR, treeSize,
        pts_leaf, List.length_append, List.length_singleton]
       omega)

/-! ### The remove scan loop (C7) -/

section RemoveScan

variable {α : Type}

lemma set_dropLast_take (l : List α) (z : α) (i : ℕ) (hi : i < l.length) :
    ((l.set i z).dropLast).take i = l.take i := by
  rw [List.dropLast_eq_take, List.take_take, List.length_set]
  have hmin : min i (l.length - 1) = i ∨ (i = l.length - 1 ∧ min i (l.length - 1) = i) := by
    omega
  have hmin2 : min i (l.length - 1) = i := by omega
  rw [hmin2, List.set_eq_take_cons_drop z hi]
  have hlt : (l.take i).length = i := by
    rw [List.length_take]; omega
  calc (l.take i ++ z :: l.drop (i + 1)).take i
      = (l.take i ++ z :: l.drop (i + 1)).take (l.take i).length := by rw [hlt]
    _ = l.take i := List.take_left _ _

lemma set_dropLast_drop_perm (l : List α) (i : ℕ) (hi : i < l.length)
    (hne : l ≠ []) :
    (l.get ⟨i, hi⟩ :: ((l.set i (l.getLast hne)).dropLast).drop i).Perm (l.drop i) := by
  by_cases hlast : i = l.length - 1
  · have h1 : ((l.set i (l.getLast hne)).dropLast).length = l.length - 1 := by
      rw [List.length_dropLast, List.length_set]
    have h2 : ((l.set i (l.getLast hne)).dropLast).drop i = [] := by
      apply List.drop_eq_nil_of_le
      omega
    have h3 : l.drop i = [l.get ⟨i, hi⟩] := by
      rw [List.drop_eq_get_cons hi]
      have : l.drop (i + 1) = [] := List.drop_eq_nil_of_le (by omega)
      rw [this]
    rw [h2, h3]
  · have hi1 : i + 1 < l.length := by omega
    have hdne : l.drop (i + 1) ≠ [] := by
      simp only [ne_eq, List.drop_eq_nil_iff]
      omega
    have hset : l.set i (l.getLast hne) =
        l.take i ++ l.getLast hne :: l.drop (i + 1) :=
      List.set_eq_take_cons_drop _ hi
    have hdl : (l.set i (l.getLast hne)).dropLast =
        l.take i ++ (l.getLast hne :: l.drop (i + 1)).dropLast := by
      rw [hset]
      exact List.dropLast_append_of_ne_nil _ (by simp)
    have hdl2 : (l.getLast hne :: l.drop (i + 1)).dropLast =
        l.getLast hne :: (l.drop (i + 1)).dropLast := by
      rw [List.dropLast_cons_of_ne_nil hdne]
    have hlt : (l.take i).length = i := by rw [List.length_take]; omega
    have hdrop : ((l.set i (l.getLast hne)).dropLast).drop i =
        l.getLast hne :: (l.drop (i + 1)).dropLast := by
      rw [hdl, hdl2]
      calc (l.take i ++ l.getLast hne :: (l.drop (i + 1)).dropLast).drop i
          = (l.take i ++ l.getLast hne :: (l.drop (i + 1)).dropLast).drop
              (l.take i).length := by rw [hlt]
        _ = _ := List.drop_left _ _
    rw [hdrop]
    have hglast : (l.drop (i + 1)).getLast hdne = l.getLast hne := by
      rw [List.getLast_drop]
    have hrec : l.drop (i + 1) =
        (l.drop (i + 1)).dropLast ++ [l.getLast hne] := by
      conv_lhs => rw [← List.dropLast_append_getLast hdne]
      rw [hglast]
    have hstep : (l.getLast hne :: (l.drop (i + 1)).dropLast).Perm (l.drop (i + 1)) := by
      conv_rhs => rw [hrec]
      exact (List.perm_append_singleton _ _).symm
    rw [List.drop_eq_get_cons hi]
    exact hstep.cons _

end RemoveScan

/-- Boolean form of the removal predicate, for counting and filtering. -/
lemma countMatches_eq (K : ℕ) (q : Pt) (it : ℕ) (l : List Pair) :
    countMatches K q it l = l.countP (fun pr => decide (matchPair K q it pr)) := rfl

lemma getLastD_eq_getLast (l : List Pair) (h : l ≠ []) :
    l.getLastD dfltPair = l.getLast h := by
  cases l with
  | nil => exact absurd rfl h
  | cons a as => simp [List.getLastD_eq_getLast?, List.getLast?_eq_getLast _ h]

/-- Full characterisation of the scan loop: the prefix before `i` is
untouched, the suffix ends up a permutation of its non-matching slots, and
the returned count is the number of matching slots of the suffix. -/
lemma removeLoopF_spec (K : ℕ) (q : Pt) (it : ℕ) :
    ∀ (fuel : ℕ) (l : List Pair) (i : ℕ), l.length - i ≤ fuel →
      (removeLoopF K q it fuel l i).1.take i = l.take i ∧
      ((removeLoopF K q it fuel l i).1.drop i).Perm
        ((l.drop i).filter (fun pr => !decide (matchPair K q it pr))) ∧
      (removeLoopF K q it fuel l i).2 =
        (l.drop i).countP (fun pr => decide (matchPair K q it pr)) := by
  intro fuel
  induction fuel with
  | zero =>
    intro l i hf
    have hd : l.drop i = [] := List.drop_eq_nil_of_le (by omega)
    simp [removeLoopF, hd]
  | succ fuel ih =>
    intro l i hf
    by_cases hi : i < l.length
    · have hne : l ≠ [] := by
        intro h; rw [h] at hi; simp at hi
      have hz : l.getLastD dfltPair = l.getLast hne := getLastD_eq_getLast l hne
      have hdropl : l.drop i = l.get ⟨i, hi⟩ :: l.drop (i + 1) := List.drop_eq_get_cons hi
      by_cases hm : matchPair K q it (l.get ⟨i, hi⟩)
      · have hperm : (l.get ⟨i, hi⟩ ::
            ((l.set i (l.getLastD dfltPair)).dropLast).drop i).Perm (l.drop i) := by
          rw [hz]; exact set_dropLast_drop_perm l i hi hne
        have hlen2 : ((l.set i (l.getLastD dfltPair)).dropLast).length = l.length - 1 := by
          rw [List.length_dropLast, List.length_set]
        obtain ⟨iht, ihp, ihc⟩ :=
          ih ((l.set i (l.getLastD dfltPair)).dropLast) i (by omega)
        simp only [removeLoopF, dif_pos hi, if_pos hm]
        refine ⟨?_, ?_, ?_⟩
        · rw [iht, set_dropLast_take l _ i hi]
        · refine ihp.trans ?_
          have hthis := hperm.filter (fun pr => !decide (matchPair K q it pr))
          rw [List.filter_cons] at hthis
          simp only [hm, decide_true_eq_true, Bool.not_true] at hthis
          simpa using hthis
        · have hm4 : matchPair K q it l[i] := hm
          rw [ihc, ← hperm.countP_eq (fun pr => decide (matchPair K q it pr)),
            List.countP_cons]
          simp [hm4]
      · obtain ⟨iht, ihp, ihc⟩ := ih l (i + 1) (by omega)
        simp only [removeLoopF, dif_pos hi, if_neg hm]
        have hreslen : (removeLoopF K q it fuel l (i + 1)).1.length +
            (removeLoopF K q it fuel l (i + 1)).2 = l.length :=
          removeLoopF_length K q it fuel l (i + 1)
        have hcle : (l.drop (i + 1)).countP (fun pr => decide (matchPair K q it pr)) ≤
            (l.drop (i + 1)).length := List.countP_le_length _
        have hdlen : (l.drop (i + 1)).length = l.length - (i + 1) := by
          rw [List.length_drop]
        have hrlen : i < (removeLoopF K q it fuel l (i + 1)).1.length := by omega
        refine ⟨?_, ?_, ?_⟩
        · have h1 := congrArg (List.take i) iht
          rw [List.take_take, List.take_take] at h1
          have hmin : min i (i + 1) = i := min_eq_left (Nat.le_succ i)
          rwa [hmin] at h1
        · have hresdrop : (removeLoopF K q it fuel l (i + 1)).1.drop i =
              (removeLoopF K q it fuel l (i + 1)).1.get ⟨i, hrlen⟩ ::
                (removeLoopF K q it fuel l (i + 1)).1.drop (i + 1) :=
            List.drop_eq_get_cons hrlen
          have hgeteq : (removeLoopF K q it fuel l (i + 1)).1.get ⟨i, hrlen⟩ =
              l.get ⟨i, hi⟩ := by
            have h1 : ((removeLoopF K q it fuel l (i + 1)).1.take (i + 1))[i]? =
                (l.take (i + 1))[i]? := by rw [iht]
            rw [List.getElem?_take_of_lt (by omega), List.getElem?_take_of_lt (by omega)] at h1
            rw [List.getElem?_eq_getElem (by omega), List.getElem?_eq_getElem hi] at h1
            simpa [List.get_eq_getElem] using Option.some.inj h1
          have hm3 : ¬ matchPair K q it l[i] := hm
          rw [hresdrop, hgeteq, hdropl, List.filter_cons]
          have hm2 : (!decide (matchPair K q it (l.get ⟨i, hi⟩))) = true := by
            simp only [List.get_eq_getElem]
            simp [hm3]
          rw [if_pos hm2]
          exact ihp.cons _
        · have hm3 : ¬ matchPair K q it l[i] := hm
          rw [ihc, hdropl, List.countP_cons]
          simp [hm3]
    · have hd : l.drop i = [] := List.drop_eq_nil_of_le (by omega)
      simp [removeLoopF, dif_neg hi, hd]

/-- If no slot of the list matches, the scan loop leaves it untouched and
counts zero. -/
lemma removeLoopF_no_match (K : ℕ) (q : Pt) (it : ℕ) :
    ∀ (fuel : ℕ) (l : List Pair) (i : ℕ),
      (∀ pr ∈ l.drop i, ¬ matchPair K q it pr) →
      removeLoopF K q it fuel l i = (l, 0) := by
  intro fuel
  induction fuel with
  | zero => intro l i _; rfl
  | succ fuel ih =>
    intro l i hnm
    by_cases hi : i < l.length
    · have hdropl : l.drop i = l.get ⟨i, hi⟩ :: l.drop (i + 1) := List.drop_eq_get_cons hi
      have hm : ¬ matchPair K q it (l.get ⟨i, hi⟩) :=
        hnm _ (hdropl ▸ List.mem_cons_self _ _)
      simp only [removeLoopF, dif_pos hi, if_neg hm]
      refine ih l (i + 1) ?_
      intro pr hpr
      exact hnm pr (hdropl ▸ List.mem_cons_of_mem _ hpr)
    · simp [removeLoopF, dif_neg hi]

lemma removeLoop_spec (K : ℕ) (q : Pt) (it : ℕ) (l : List Pair) :
    ((removeLoop K q it l 0).1).Perm
        (l.filter (fun pr => !decide (matchPair K q it pr))) ∧
      (removeLoop K q it l 0).2 = countMatches K q it l := by
  obtain ⟨_, hp, hc⟩ := removeLoopF_spec K q it (l.length - 0) l 0 le_rfl
  simpa [removeLoop, countMatches] using ⟨hp, hc⟩

/-- The reached leaf of the new tree: `removeNode` equals replacing the
descent leaf's content with the loop result. -/
lemma removeNode_eq_replace (K : ℕ) (q : Pt) (it : ℕ) :
    ∀ (t : KdNode) (d : ℕ),
      removeNode K q it t d =
        (replaceDescentLeaf K q t d ((removeLoop K q it (descentLeaf K q t d) 0).1),
          countMatches K q it (descentLeaf K q t d)) := by
  intro t
  induction t with
  | leaf c =>
    intro d
    simp only [removeNode, descentLeaf, replaceDescentLeaf]
    rw [(removeLoop_spec K q it c).2]
  | stem v l r ihl ihr =>
    intro d
    by_cases hq : q d ≤ v
    · simp only [removeNode, if_pos hq, descentLeaf, replaceDescentLeaf, ihl ((d + 1) % K)]
    · simp only [removeNode, if_neg hq, descentLeaf, replaceDescentLeaf, ihr ((d + 1) % K)]

lemma removeNode_no_match (K : ℕ) (q : Pt) (it : ℕ) :
    ∀ (t : KdNode) (d : ℕ),
      countMatches K q it (descentLeaf K q t d) = 0 →
      removeNode K q it t d = (t, 0) := by
  intro t
  induction t with
  | leaf c =>
    intro d h0
    have hnm : ∀ pr ∈ c.drop 0, ¬ matchPair K q it pr := by
      intro pr hpr hm
      have := List.countP_eq_zero.mp (countMatches_eq K q it c ▸ h0) pr (by simpa using hpr)
      simp [hm] at this
    simp only [removeNode, removeLoop]
    rw [removeLoopF_no_match K q it _ c 0 hnm]
  | stem v l r ihl ihr =>
    intro d h0
    by_cases hq : q d ≤ v
    · have := ihl ((d + 1) % K) (by simpa [descentLeaf, hq] using h0)
      simp [removeNode, hq, this]
    · have := ihr ((d + 1) % K) (by simpa [descentLeaf, hq] using h0)
      simp [removeNode, hq, this]

/-- CLAIM C7.  `remove(point, item)` affects only the single leaf reached by
the `≤ → left` descent: it removes exactly the occupied slots of that leaf
whose point equals the query coordinatewise and whose item matches (duplicates
included) and returns their number; the new leaf content is a permutation of
the non-matching slots; and when nothing in that leaf matches, the tree
(root structure and size counter) is returned unchanged with count 0. -/
theorem remove_characterisation (K : ℕ) (q : Pt) (it : ℕ) (t : KdNode) (d : ℕ)
    (T : KdTree) :
    (removeNode K q it t d).2 = countMatches K q it (descentLeaf K q t d) ∧
    (removeNode K q it t d).1 =
      replaceDescentLeaf K q t d ((removeLoop K q it (descentLeaf K q t d) 0).1) ∧
    ((removeLoop K q it (descentLeaf K q t d) 0).1).Perm
      ((descentLeaf K q t d).filter (fun pr => !decide (matchPair K q it pr))) ∧
    (countMatches K q it (descentLeaf K q T.root 0) = 0 →
      T.remove K q it = (T, 0)) := by
  refine ⟨?_, ?_, (removeLoop_spec K q it _).1, ?_⟩
  · rw [removeNode_eq_replace]
  · rw [removeNode_eq_replace]
  · intro h0
    simp only [KdTree.remove]
    rw [removeNode_no_match K q it T.root 0 h0]
    simp

/-- Witness for C7: a concrete removal of a duplicated pair from a split tree
removes both copies, and a non-matching removal returns the tree unchanged. -/
theorem remove_characterisation_witness :
    ((removeNode 1 (cpt 5) 7 (runOps 1 4 [.addOp (cpt 5) 7, .addOp (cpt 5) 7,
        .addOp (cpt 6) 1]).root 0).2 =
      countMatches 1 (cpt 5) 7 (descentLeaf 1 (cpt 5)
        (runOps 1 4 [.addOp (cpt 5) 7, .addOp (cpt 5) 7, .addOp (cpt 6) 1]).root 0) ∧
    (removeNode 1 (cpt 5) 7 (runOps 1 4 [.addOp (cpt 5) 7, .addOp (cpt 5) 7,
        .addOp (cpt 6) 1]).root 0).1 =
      replaceDescentLeaf 1 (cpt 5) (runOps 1 4 [.addOp (cpt 5) 7, .addOp (cpt 5) 7,
        .addOp (cpt 6) 1]).root 0 ((removeLoop 1 (cpt 5) 7 (descentLeaf 1 (cpt 5)
          (runOps 1 4 [.addOp (cpt 5) 7, .addOp (cpt 5) 7, .addOp (cpt 6) 1]).root 0) 0).1) ∧
    ((removeLoop 1 (cpt 5) 7 (descentLeaf 1 (cpt 5)
        (runOps 1 4 [.addOp (cpt 5) 7, .addOp (cpt 5) 7, .addOp (cpt 6) 1]).root 0) 0).1).Perm
      ((descentLeaf 1 (cpt 5) (runOps 1 4 [.addOp (cpt 5) 7, .addOp (cpt 5) 7,
        .addOp (cpt 6) 1]).root 0).filter (fun pr => !decide (matchPair 1 (cpt 5) 7 pr))) ∧
    (countMatches 1 (cpt 5) 7 (descentLeaf 1 (cpt 5)
        (runOps 1 4 [.addOp (cpt 9) 3]).root 0) = 0 →
      (runOps 1 4 [.addOp (cpt 9) 3]).remove 1 (cpt 5) 7 =
        ((runOps 1 4 [.addOp (cpt 9) 3]), 0))) :=
  remove_characterisation 1 (cpt 5) 7
    (runOps 1 4 [.addOp (cpt 5) 7, .addOp (cpt 5) 7, .addOp (cpt 6) 1]).root 0
    (runOps 1 4 [.addOp (cpt 9) 3])

/-! ### Leaf occupancy bounds (C3) -/

lemma addNode_leafSizes (K B : ℕ) (q : Pt) (it : ℕ) (hB : 2 ≤ B) :
    ∀ (t : KdNode) (d : ℕ), leafSizesLEB B t = true →
      leafSizesLEB B (addNode K B q it t d) = true := by
  intro t
  induction t with
  | leaf c =>
    intro d hc
    simp only [leafSizesLEB, decide_eq_true_eq] at hc
    by_cases h : c.length = B
    · obtain ⟨hl, hr⟩ := splitContent_parts_length B d c h
      by_cases hq : q d < (splitContent B d c).1
      · simp only [addNode, if_pos h, if_pos hq, leafSizesLEB, Bool.and_eq_true,
          decide_eq_true_eq, List.length_append, List.length_singleton]
        omega
      · simp only [addNode, if_pos h, if_neg hq, leafSizesLEB, Bool.and_eq_true,
          decide_eq_true_eq, List.length_append, List.length_singleton]
        omega
    · simp only [addNode, if_neg h, leafSizesLEB, decide_eq_true_eq,
        List.length_append, List.length_singleton]
      omega
  | stem v l r ihl ihr =>
    intro d hc
    simp only [leafSizesLEB, Bool.and_eq_true] at hc
    by_cases hq : q d ≤ v
    · simp only [addNode, if_pos hq, leafSizesLEB, Bool.and_eq_true]
      exact ⟨ihl _ hc.1, hc.2⟩
    · simp only [addNode, if_neg hq, leafSizesLEB, Bool.and_eq_true]
      exact ⟨hc.1, ihr _ hc.2⟩

lemma removeNode_leafSizes (K B : ℕ) (q : Pt) (it : ℕ) :
    ∀ (t : KdNode) (d : ℕ), leafSizesLEB B t = true →
      leafSizesLEB B (removeNode K q it t d).1 = true := by
  intro t
  induction t with
  | leaf c =>
    intro d hc
    simp only [leafSizesLEB, decide_eq_true_eq] at hc
    have hlen := removeLoopF_length K q it (c.length - 0) c 0
    simp only [removeNode, removeLoop, leafSizesLEB, decide_eq_true_eq]
    omega
  | stem v l r ihl ihr =>
    intro d hc
    simp only [leafSizesLEB, Bool.and_eq_true] at hc
    by_cases hq : q d ≤ v
    · simp only [removeNode, if_pos hq, leafSizesLEB, Bool.and_eq_true]
      exact ⟨ihl _ hc.1, hc.2⟩
    · simp only [removeNode, if_neg hq, leafSizesLEB, Bool.and_eq_true]
      exact ⟨hc.1, ihr _ hc.2⟩

lemma addNode_noEmpty (K B : ℕ) (q : Pt) (it : ℕ) (hB : 2 ≤ B) :
    ∀ (t : KdNode) (d : ℕ), noEmptyLeafB t = true →
      noEmptyLeafB (addNode K B q it t d) = true := by
  intro t
  induction t with
  | leaf c =>
    intro d _
    by_cases h : c.length = B
    · obtain ⟨hl, hr⟩ := splitContent_parts_length B d c h
      have hlne : (splitContent B d c).2.1 ≠ [] := by
        intro he
        rw [he] at hl
        simp at hl
        omega
      have hrne : (splitContent B d c).2.2 ≠ [] := by
        intro he
        rw [he] at hr
        simp at hr
        omega
      by_cases hq : q d < (splitContent B d c).1
      · simp only [addNode, if_pos h, if_pos hq, noEmptyLeafB, Bool.and_eq_true,
          Bool.not_eq_true', List.isEmpty_eq_false]
        exact ⟨by simp, hrne⟩
      · simp only [addNode, if_pos h, if_neg hq, noEmptyLeafB, Bool.and_eq_true,
          Bool.not_eq_true', List.isEmpty_eq_false]
        exact ⟨hlne, by simp⟩
    · simp only [addNode, if_neg h, noEmptyLeafB, Bool.not_eq_true', List.isEmpty_eq_false]
      simp
  | stem v l r ihl ihr =>
    intro d hc
    simp only [noEmptyLeafB, Bool.and_eq_true] at hc
    by_cases hq : q d ≤ v
    · simp only [addNode, if_pos hq, noEmptyLeafB, Bool.and_eq_true]
      exact ⟨ihl _ hc.1, hc.2⟩
    · simp only [addNode, if_neg hq, noEmptyLeafB, Bool.and_eq_true]
      exact ⟨hc.1, ihr _ hc.2⟩

lemma noEmpty_onlyRootEmpty (t : KdNode) (h : noEmptyLeafB t = true) :
    onlyRootEmptyB t = true := by
  cases t with
  | leaf c => rfl
  | stem v l r => simpa [noEmptyLeafB, onlyRootEmptyB] using h

/-- COUNTEREXAMPLE for C3.  With K = 1, B = 2, the sequence add 0, add 2,
add 3 (which splits) followed by remove of point 0 empties the left child of
the root stem: a non-root leaf holds 0 items. -/
theorem leaf_occupancy_counterexample :
    onlyRootEmptyB (runOps 1 2 [.addOp (cpt 0) 0, .addOp (cpt 2) 1,
      .addOp (cpt 3) 2, .removeOp (cpt 0) 0]).root = false ∧
    leafSizesLEB 2 (runOps 1 2 [.addOp (cpt 0) 0, .addOp (cpt 2) 1,
      .addOp (cpt 3) 2, .removeOp (cpt 0) 0]).root = true := by
  decide

/-- CLAIM C3 (amended).  For bucket capacity `B ≥ 2`, after every sequence of
public operations every leaf holds between 0 and `B` items; and for sequences
of adds only, every leaf of size 0 is the root.  (A removal can empty a
non-root leaf, which is never merged away, so the only-the-root-may-be-empty
clause holds only in the absence of removals.) -/
theorem leaf_occupancy (K B : ℕ) (ops : List Op) (hB : 2 ≤ B) :
    leafSizesLEB B (runOps K B ops).root = true ∧
    (allAddsB ops = true → onlyRootEmptyB (runOps K B ops).root = true) := by
  constructor
  · suffices h : ∀ (ops : List Op) (t : KdTree), leafSizesLEB B t.root = true →
        leafSizesLEB B ((ops.foldl (applyOp K B) t)).root = true by
      refine h ops KdTree.new ?_
      simp [KdTree.new, leafSizesLEB]
    intro ops
    induction ops with
    | nil => intro t h; exact h
    | cons op rest ih =>
      intro t h
      refine ih _ ?_
      cases op with
      | addOp p j => exact addNode_leafSizes K B p j hB t.root 0 h
      | removeOp p j => exact removeNode_leafSizes K B p j t.root 0 h
  · intro hadds
    suffices h : ∀ (ops : List Op) (t : KdTree), allAddsB ops = true →
        (noEmptyLeafB t.root = true ∨ t.root = .leaf []) →
        (noEmptyLeafB ((ops.foldl (applyOp K B) t)).root = true ∨
          ((ops.foldl (applyOp K B) t)).root = .leaf []) by
      rcases h ops KdTree.new hadds (Or.inr rfl) with h1 | h1
      · exact noEmpty_onlyRootEmpty _ h1
      · simp only [runOps]
        rw [h1]
        rfl
    intro ops
    induction ops with
    | nil => intro t _ h; exact h
    | cons op rest ih =>
      intro t hadds h
      cases op with
      | addOp p j =>
        refine ih _ (by simpa [allAddsB] using hadds) ?_
        left
        rcases h with h1 | h1
        · exact addNode_noEmpty K B p j hB t.root 0 h1
        · simp only [applyOp, KdTree.add, h1]
          have hne : ¬ ([] : List Pair).length = B := by simp; omega
          simp only [addNode, if_neg hne, noEmptyLeafB]
          simp
      | removeOp p j => simp [allAddsB] at hadds

/-- Witness for the amended C3: three adds with B = 2 split the root; all leaf
sizes stay at most 2 and no non-root leaf is empty. -/
theorem leaf_occupancy_witness :
    2 ≤ 2 ∧
    (leafSizesLEB 2 (runOps 1 2 [.addOp (cpt 0) 0, .addOp (cpt 2) 1,
        .addOp (cpt 3) 2]).root = true ∧
      (allAddsB [.addOp (cpt 0) 0, .addOp (cpt 2) 1, .addOp (cpt 3) 2] = true →
        onlyRootEmptyB (runOps 1 2 [.addOp (cpt 0) 0, .addOp (cpt 2) 1,
          .addOp (cpt 3) 2]).root = true)) :=
  ⟨by decide, leaf_occupancy 1 2 [.addOp (cpt 0) 0, .addOp (cpt 2) 1,
    .addOp (cpt 3) 2] (by decide)⟩

/-- Witness for C9 at K = 1, B = 2. -/
theorem split_leaves_under_capacity_witness :
    (2 ≤ 2 ∧ [((cpt 1 : Pt), 0), (cpt 2, 1)].length = 2) ∧
    ((splitContent 2 0 [(cpt 1, 0), (cpt 2, 1)]).2.1.length ≤ 1 ∧
      (splitContent 2 0 [(cpt 1, 0), (cpt 2, 1)]).2.2.length ≤ 1 ∧
      (splitContent 2 0 [(cpt 1, 0), (cpt 2, 1)]).2.1.length < 2 ∧
      (splitContent 2 0 [(cpt 1, 0), (cpt 2, 1)]).2.2.length < 2 ∧
      treeSize (childL (addNode 1 2 (cpt 3) 7 (.leaf [(cpt 1, 0), (cpt 2, 1)]) 0)) ≤ 2 ∧
      treeSize (childR (addNode 1 2 (cpt 3) 7 (.leaf [(cpt 1, 0), (cpt 2, 1)]) 0)) ≤ 2) :=
  ⟨⟨by decide, by decide⟩,
    split_leaves_under_capacity 1 2 0 (cpt 3) 7 _ (by decide) (by decide)⟩

/-! ### Fold-minimum toolkit (C1) -/

lemma foldr_min_le_init (l : List ℤ) (b : ℤ) : l.foldr min b ≤ b := by
  induction l with
  | nil => simp
  | cons x xs ih => exact le_trans (min_le_right _ _) ih

lemma foldr_min_min (l : List ℤ) (a b : ℤ) :
    l.foldr min (min a b) = min a (l.foldr min b) := by
  induction l with
  | nil => rfl
  | cons x xs ih => rw [List.foldr_cons, ih, List.foldr_cons, min_left_comm]

lemma foldl_min_eq_foldr_min (l : List ℤ) (b : ℤ) :
    l.foldl min b = l.foldr min b := by
  induction l generalizing b with
  | nil => rfl
  | cons x xs ih =>
    rw [List.foldl_cons, ih, min_comm b x, foldr_min_min, List.foldr_cons]

lemma foldr_min_perm {l1 l2 : List ℤ} (h : l1.Perm l2) (b : ℤ) :
    l1.foldr min b = l2.foldr min b := by
  induction h with
  | nil => rfl
  | cons x _ ih => simp only [List.foldr_cons, ih]
  | swap x y l => simp only [List.foldr_cons, min_left_comm]
  | trans _ _ ih1 ih2 => rw [ih1, ih2]

lemma foldr_min_stable (l : List ℤ) (b : ℤ) (h : ∀ x ∈ l, b ≤ x) :
    l.foldr min b = b := by
  induction l with
  | nil => rfl
  | cons x xs ih =>
    rw [List.foldr_cons, ih (fun y hy => h y (List.mem_cons_of_mem _ hy))]
    exact min_eq_right (h x (List.mem_cons_self _ _))

lemma if_lt_eq_left {a b : ℤ} (h : a ≤ b) : (if a < b then a else b) = a := by
  by_cases hlt : a < b
  · rw [if_pos hlt]
  · rw [if_neg hlt]; omega

/-- The leaf scan computes the minimum of the slot distances and the incoming
best. -/
lemma search_spec (q : Pt) (f : Pt → Pt → ℤ) :
    ∀ (c : List Pair) (bi : ℕ) (bd : ℤ),
      (searchContentForBest q f bi bd c).1 =
        (c.map (fun pr => f q pr.1)).foldr min bd := by
  suffices hl : ∀ (c : List Pair) (bi : ℕ) (bd : ℤ),
      (searchContentForBest q f bi bd c).1 =
        (c.map (fun pr => f q pr.1)).foldl min bd by
    intro c bi bd
    rw [hl, foldl_min_eq_foldr_min]
  intro c
  induction c with
  | nil => intro bi bd; rfl
  | cons pr rest ih =>
    intro bi bd
    simp only [searchContentForBest, List.map_cons, List.foldl_cons]
    by_cases h : f q pr.1 < bd
    · rw [if_pos h, ih, min_eq_right (le_of_lt h)]
    · rw [if_neg h, ih, min_eq_left (by omega)]

lemma sum_sq_update (K d : ℕ) (hd : d < K) (off : ℕ → ℤ) (n : ℤ) :
    ∑ i ∈ Finset.range K, (Function.update off d n i) ^ 2 =
      (∑ i ∈ Finset.range K, (off i) ^ 2) - (off d) ^ 2 + n ^ 2 := by
  have hmem : d ∈ Finset.range K := Finset.mem_range.mpr hd
  rw [← Finset.add_sum_erase _ (fun i => (Function.update off d n i) ^ 2) hmem,
    ← Finset.add_sum_erase _ (fun i => (off i) ^ 2) hmem]
  have hcongr : ∑ i ∈ (Finset.range K).erase d, (Function.update off d n i) ^ 2 =
      ∑ i ∈ (Finset.range K).erase d, (off i) ^ 2 := by
    refine Finset.sum_congr rfl ?_
    intro i hi
    rw [Function.update_noteq (Finset.ne_of_mem_erase hi)]
  rw [hcongr, Function.update_same]
  ring

/-! ### Invariant lemmas for the nearest_one pruning proof (C1) -/

lemma Compat_mono {K : ℕ} {q : Pt} {off : ℕ → ℤ} {box box2 : Box}
    (h : ∀ i x, box2 i x → box i x) (hC : Compat K q off box) :
    Compat K q off box2 := fun i hi =>
  ⟨(hC i hi).1, fun x hx => (hC i hi).2 x (h i x hx)⟩

lemma Compat_update {K : ℕ} {q : Pt} {off : ℕ → ℤ} {d : ℕ} {box boxF : Box}
    (hd : d < K) (hC : Compat K q off box) (n : ℤ) (hn : 0 ≤ n)
    (hFar : ∀ x : ℤ, boxF d x → n ≤ |q d - x|)
    (hmono : ∀ i x, i ≠ d → boxF i x → box i x) :
    Compat K q (Function.update off d n) boxF := by
  intro i hi
  by_cases hid : i = d
  · subst hid
    rw [Function.update_same]
    exact ⟨hn, hFar⟩
  · rw [Function.update_noteq hid]
    exact ⟨(hC i hi).1, fun x hx => (hC i hi).2 x (hmono i x hid hx)⟩

lemma pts_in_box (K : ℕ) :
    ∀ (t : KdNode) (box : Box) (d : ℕ), WF K box d t →
      ∀ pr ∈ pts t, ∀ i < K, box i (pr.1 i) := by
  intro t
  induction t with
  | leaf c => intro box d h; exact h
  | stem v l r ihl ihr =>
    intro box d h pr hpr i hi
    rcases List.mem_append.mp (by simpa using hpr) with h1 | h1
    · exact (ihl _ _ h.2.1 pr h1 i hi).1
    · exact (ihr _ _ h.2.2 pr h1 i hi).1

lemma DomBound_sub {K : ℕ} {q : Pt} {f : Pt → Pt → ℤ} {P1 P2 : List Pair}
    (h : ∀ x ∈ P1, x ∈ P2) (hD : DomBound K q f P2) : DomBound K q f P1 :=
  fun pr hpr => hD pr (h pr hpr)

/-- Squared Euclidean distance satisfies the admissibility contract for every
query and every point set. -/
lemma sqEuclid_domBound (K : ℕ) (q : Pt) (P : List Pair) :
    DomBound K q (sqEuclidD K) P := by
  intro pr _ off hoff
  unfold sqEuclidD
  refine Finset.sum_le_sum ?_
  intro i hi
  have h := hoff i (Finset.mem_range.mp hi)
  have hle : (off i) ^ 2 ≤ |q i - pr.1 i| ^ 2 := pow_le_pow_left h.1 h.2 2
  simpa [sq_abs] using hle

lemma sortPairs_sorted (d : ℕ) (c : List Pair) :
    List.Sorted (pdLe d) (sortPairs d c) :=
  List.sorted_insertionSort _ _

lemma splitContent_left_le (B d : ℕ) (c : List Pair) (hlen : c.length = B)
    (hB : 1 ≤ B) :
    ∀ pr ∈ (splitContent B d c).2.1, pr.1 d ≤ (splitContent B d c).1 := by
  intro pr hpr
  have hpl : B / 2 < (sortPairs d c).length := by
    rw [sortPairs_length, hlen]
    exact Nat.div_lt_self (by omega) one_lt_two
  have hs : List.Pairwise (pdLe d)
      ((sortPairs d c).take (B / 2) ++ (sortPairs d c).drop (B / 2)) := by
    rw [List.take_append_drop]
    exact sortPairs_sorted d c
  have hcross := (List.pairwise_append.mp hs).2.2
  have hpiv : (sortPairs d c).getD (B / 2) dfltPair ∈ (sortPairs d c).drop (B / 2) :=
    getD_mem_drop _ _ hpl
  exact hcross pr hpr _ hpiv

lemma splitContent_right_ge (B d : ℕ) (c : List Pair) (hlen : c.length = B)
    (hB : 1 ≤ B) :
    ∀ pr ∈ (splitContent B d c).2.2, (splitContent B d c).1 ≤ pr.1 d := by
  intro pr hpr
  have hpl : B / 2 < (sortPairs d c).length := by
    rw [sortPairs_length, hlen]
    exact Nat.div_lt_self (by omega) one_lt_two
  have hsdrop : List.Pairwise (pdLe d) ((sortPairs d c).drop (B / 2)) :=
    List.Pairwise.sublist (List.drop_sublist _ _) (sortPairs_sorted d c)
  have hdropeq : (sortPairs d c).drop (B / 2) =
      (sortPairs d c).getD (B / 2) dfltPair :: (sortPairs d c).drop (B / 2 + 1) := by
    rw [List.getD_eq_getElem _ _ hpl]
    exact List.drop_eq_getElem_cons hpl
  have hpr2 : pr ∈ (sortPairs d c).drop (B / 2) := hpr
  rw [hdropeq] at hpr2 hsdrop
  show ((sortPairs d c).getD (B / 2) dfltPair).1 d ≤ pr.1 d
  rcases List.mem_cons.mp hpr2 with h1 | h1
  · rw [h1]
  · exact (List.pairwise_cons.mp hsdrop).1 pr h1

/-- Insertion preserves the box invariant (the new point must lie in the box
of the subtree it is inserted into; at the root the box is trivial). -/
lemma addNode_WF (K B : ℕ) (q : Pt) (it : ℕ) (hK : 0 < K) (hB : 1 ≤ B) :
    ∀ (t : KdNode) (box : Box) (d : ℕ), d < K → WF K box d t →
      (∀ i < K, box i (q i)) → WF K box d (addNode K B q it t d) := by
  intro t
  induction t with
  | leaf c =>
    intro box d hd hW hq
    simp only [WF] at hW
    by_cases h : c.length = B
    · have hpts : ∀ pr ∈ sortPairs d c, ∀ i < K, box i (pr.1 i) := fun pr hpr =>
        hW pr ((sortPairs_perm d c).mem_iff.mp hpr)
      have hpl : B / 2 < (sortPairs d c).length := by
        rw [sortPairs_length, h]
        exact Nat.div_lt_self (by omega) one_lt_two
      have hpivmem : (sortPairs d c).getD (B / 2) dfltPair ∈ sortPairs d c :=
        (List.drop_sublist _ _).subset (getD_mem_drop _ _ hpl)
      have hboxv : box d ((splitContent B d c).1) := hpts _ hpivmem d hd
      have hlmem : ∀ pr ∈ (splitContent B d c).2.1, ∀ i < K, box i (pr.1 i) :=
        fun pr hpr => hpts pr ((List.take_sublist _ _).subset hpr)
      have hrmem : ∀ pr ∈ (splitContent B d c).2.2, ∀ i < K, box i (pr.1 i) :=
        fun pr hpr => hpts pr ((List.drop_sublist _ _).subset hpr)
      have hlle := splitContent_left_le B d c h hB
      have hrge := splitContent_right_ge B d c h hB
      by_cases hq2 : q d < (splitContent B d c).1
      · simp only [addNode, if_pos h, if_pos hq2, WF]
        refine ⟨hboxv, ?_, ?_⟩
        · intro pr hpr i hi
          rcases List.mem_append.mp hpr with h1 | h1
          · exact ⟨hlmem pr h1 i hi, fun hid => hid ▸ hlle pr h1⟩
          · rcases List.mem_singleton.mp h1 with rfl
            exact ⟨hq i hi, fun hid => by subst hid; exact le_of_lt hq2⟩
        · intro pr hpr i hi
          exact ⟨hrmem pr hpr i hi, fun hid => hid ▸ hrge pr hpr⟩
      · simp only [addNode, if_pos h, if_neg hq2, WF]
        refine ⟨hboxv, ?_, ?_⟩
        · intro pr hpr i hi
          exact ⟨hlmem pr hpr i hi, fun hid => hid ▸ hlle pr hpr⟩
        · intro pr hpr i hi
          rcases List.mem_append.mp hpr with h1 | h1
          · exact ⟨hrmem pr h1 i hi, fun hid => hid ▸ hrge pr h1⟩
          · rcases List.mem_singleton.mp h1 with rfl
            exact ⟨hq i hi, fun hid => by subst hid; exact le_of_not_lt hq2⟩
    · simp only [addNode, if_neg h, WF]
      intro pr hpr i hi
      rcases List.mem_append.mp hpr with h1 | h1
      · exact hW pr h1 i hi
      · rcases List.mem_singleton.mp h1 with rfl
        exact hq i hi
  | stem v l r ihl ihr =>
    intro box d hd hW hq
    obtain ⟨hbv, hWl, hWr⟩ := hW
    have hd2 : (d + 1) % K < K := Nat.mod_lt _ hK
    by_cases hqd : q d ≤ v
    · simp only [addNode, if_pos hqd, WF]
      refine ⟨hbv, ?_, hWr⟩
      refine ihl _ _ hd2 hWl ?_
      intro i hi
      exact ⟨hq i hi, fun hid => hid ▸ hqd⟩
    · simp only [addNode, if_neg hqd, WF]
      refine ⟨hbv, hWl, ?_⟩
      refine ihr _ _ hd2 hWr ?_
      intro i hi
      exact ⟨hq i hi, fun hid => hid ▸ le_of_not_le hqd⟩

lemma removeLoopF_subset (K : ℕ) (q : Pt) (it : ℕ) :
    ∀ (fuel : ℕ) (l : List Pair) (i : ℕ),
      ∀ x ∈ (removeLoopF K q it fuel l i).1, x ∈ l := by
  intro fuel
  induction fuel with
  | zero => intro l i x hx; exact hx
  | succ fuel ih =>
    intro l i x hx
    by_cases hi : i < l.length
    · have hne : l ≠ [] := by intro h; rw [h] at hi; simp at hi
      by_cases hm : matchPair K q it (l.get ⟨i, hi⟩)
      · simp only [removeLoopF, dif_pos hi, if_pos hm] at hx
        have hx2 := ih _ _ _ hx
        have hx3 := (List.dropLast_sublist _).subset hx2
        rcases List.mem_or_eq_of_mem_set hx3 with h1 | h1
        · exact h1
        · rw [h1, getLastD_eq_getLast l hne]
          exact List.getLast_mem hne
      · simp only [removeLoopF, dif_pos hi, if_neg hm] at hx
        exact ih _ _ _ hx
    · simpa [removeLoopF, dif_neg hi] using hx

/-- Removal preserves the box invariant. -/
lemma removeNode_WF (K : ℕ) (q : Pt) (it : ℕ) :
    ∀ (t : KdNode) (box : Box) (d : ℕ), WF K box d t →
      WF K box d (removeNode K q it t d).1 := by
  intro t
  induction t with
  | leaf c =>
    intro box d hW
    simp only [WF] at hW
    simp only [removeNode, removeLoop, WF]
    intro pr hpr
    exact hW pr (removeLoopF_subset K q it _ c 0 pr hpr)
  | stem v l r ihl ihr =>
    intro box d hW
    obtain ⟨hbv, hWl, hWr⟩ := hW
    by_cases hqd : q d ≤ v
    · simp only [removeNode, if_pos hqd, WF]
      exact ⟨hbv, ihl _ _ hWl, hWr⟩
    · simp only [removeNode, if_neg hqd, WF]
      exact ⟨hbv, hWl, ihr _ _ hWr⟩

lemma foldr_min_append_swap (l1 l2 : List ℤ) (b : ℤ) :
    List.foldr min (List.foldr min b l1) l2 = (l1 ++ l2).foldr min b := by
  rw [← List.foldr_append]
  exact foldr_min_perm List.perm_append_comm b

/-- Every tree built by public operations satisfies the box invariant. -/
lemma runOps_WF (K B : ℕ) (hK : 0 < K) (hB : 1 ≤ B) (ops : List Op) :
    WF K topBox 0 (runOps K B ops).root := by
  suffices h : ∀ (ops : List Op) (t : KdTree), WF K topBox 0 t.root →
      WF K topBox 0 ((ops.foldl (applyOp K B) t)).root by
    refine h ops KdTree.new ?_
    intro pr hpr
    simp at hpr
  intro ops
  induction ops with
  | nil => intro t h; exact h
  | cons op rest ih =>
    intro t h
    refine ih _ ?_
    cases op with
    | addOp p j =>
      exact addNode_WF K B p j hK hB t.root topBox 0 hK h (fun i _ => trivial)
    | removeOp p j =>
      exact removeNode_WF K p j t.root topBox 0 h


/-- Main pruning-correctness lemma for `nearest_one_recurse` (C1): on a
subtree satisfying the box invariant, with an offset array compatible with
the box, `rd` the exact sum of squared offsets, and a distance function
dominating the squared-offset bound on the stored points, the returned
distance is the minimum of the incoming best and all slot distances of the
subtree. -/
lemma nearestOneRecurse_min (K : ℕ) (hK : 0 < K) (q : Pt) (f : Pt → Pt → ℤ) :
    ∀ (t : KdNode) (box : Box) (d : ℕ), d < K → WF K box d t →
      ∀ (off : ℕ → ℤ) (rd : ℤ), Compat K q off box →
        rd = ∑ i ∈ Finset.range K, (off i) ^ 2 →
        DomBound K q f (pts t) →
        ∀ (bi : ℕ) (bd : ℤ),
          (nearestOneRecurse K q f t d bi bd off rd).1 =
            ((pts t).map (fun pr => f q pr.1)).foldr min bd := by
  intro t
  induction t with
  | leaf c =>
    intro box d _ _ off rd _ _ _ bi bd
    exact search_spec q f c bi bd
  | stem v l r ihl ihr =>
    intro box d hd hW off rd hC hrd hD bi bd
    obtain ⟨hbv, hWl, hWr⟩ := hW
    have hd2 : (d + 1) % K < K := Nat.mod_lt _ hK
    have hDl : DomBound K q f (pts l) :=
      DomBound_sub (fun x hx => List.mem_append_left _ hx) hD
    have hDr : DomBound K q f (pts r) :=
      DomBound_sub (fun x hx => List.mem_append_right _ hx) hD
    have hCl : Compat K q off (fun i x => box i x ∧ (i = d → x ≤ v)) :=
      Compat_mono (fun i x hx => hx.1) hC
    have hCr : Compat K q off (fun i x => box i x ∧ (i = d → v ≤ x)) :=
      Compat_mono (fun i x hx => hx.1) hC
    have hod : 0 ≤ off d := (hC d hd).1
    have hon : off d ≤ |q d - v| := (hC d hd).2 v hbv
    have hnn : (0:ℤ) ≤ |q d - v| := abs_nonneg _
    have hsq : off d * off d ≤ |q d - v| * |q d - v| := mul_le_mul hon hon hod hnn
    have hrd2eq : rd + max (|q d - v| * |q d - v| - off d * off d) 0 =
        ∑ i ∈ Finset.range K, (Function.update off d (|q d - v|) i) ^ 2 := by
      rw [max_eq_left (sub_nonneg.mpr hsq), sum_sq_update K d hd, ← hrd]
      ring
    by_cases hq : q d < v
    · have hCfar : Compat K q (Function.update off d (|q d - v|))
          (fun i x => box i x ∧ (i = d → v ≤ x)) := by
        refine Compat_update hd hC _ hnn ?_ (fun i x _ hx => hx.1)
        intro x hx
        have hvx : v ≤ x := hx.2 rfl
        have h1 : |q d - v| = v - q d := by
          rw [abs_sub_comm]
          exact abs_of_nonneg (by omega)
        have h2 : |q d - x| = x - q d := by
          rw [abs_sub_comm]
          exact abs_of_nonneg (by omega)
        omega
      have hFbound : ∀ pr ∈ pts r, ∀ i < K,
          0 ≤ Function.update off d (|q d - v|) i ∧
          Function.update off d (|q d - v|) i ≤ |q i - pr.1 i| := by
        intro pr hpr i hi
        have hbox := pts_in_box K r _ _ hWr pr hpr i hi
        exact ⟨(hCfar i hi).1, (hCfar i hi).2 _ hbox⟩
      have hresl := ihl _ _ hd2 hWl off rd hCl hrd hDl
      have hresr := ihr _ _ hd2 hWr (Function.update off d (|q d - v|))
        (∑ i ∈ Finset.range K, (Function.update off d (|q d - v|) i) ^ 2)
        hCfar rfl hDr
      simp only [nearestOneRecurse, if_pos hq, pts_stem, List.map_append]
      rw [hresl bi bd]
      rw [if_lt_eq_left (foldr_min_le_init _ _)]
      rw [hrd2eq]
      simp only [apply_ite Prod.fst]
      by_cases hprune : (∑ i ∈ Finset.range K, (Function.update off d (|q d - v|) i) ^ 2) ≤
          ((pts l).map (fun pr => f q pr.1)).foldr min bd
      · rw [if_pos hprune, hresr _ _]
        rw [if_lt_eq_left (foldr_min_le_init _ _)]
        exact foldr_min_append_swap _ _ _
      · rw [if_neg hprune]
        rw [← foldr_min_append_swap]
        refine (foldr_min_stable _ _ ?_).symm
        intro y hy
        rcases List.mem_map.mp hy with ⟨pr, hpr, rfl⟩
        have hge := hD pr (List.mem_append_right _ hpr) _ (hFbound pr hpr)
        omega
    · have hCfar : Compat K q (Function.update off d (|q d - v|))
          (fun i x => box i x ∧ (i = d → x ≤ v)) := by
        refine Compat_update hd hC _ hnn ?_ (fun i x _ hx => hx.1)
        intro x hx
        have hvx : x ≤ v := hx.2 rfl
        have h1 : |q d - v| = q d - v := abs_of_nonneg (by omega)
        have h2 : |q d - x| = q d - x := abs_of_nonneg (by omega)
        omega
      have hFbound : ∀ pr ∈ pts l, ∀ i < K,
          0 ≤ Function.update off d (|q d - v|) i ∧
          Function.update off d (|q d - v|) i ≤ |q i - pr.1 i| := by
        intro pr hpr i hi
        have hbox := pts_in_box K l _ _ hWl pr hpr i hi
        exact ⟨(hCfar i hi).1, (hCfar i hi).2 _ hbox⟩
      have hresC := ihr _ _ hd2 hWr off rd hCr hrd hDr
      have hresF := ihl _ _ hd2 hWl (Function.update off d (|q d - v|))
        (∑ i ∈ Finset.range K, (Function.update off d (|q d - v|) i) ^ 2)
        hCfar rfl hDl
      simp only [nearestOneRecurse, if_neg hq, pts_stem, List.map_append]
      rw [hresC bi bd]
      rw [if_lt_eq_left (foldr_min_le_init _ _)]
      rw [hrd2eq]
      simp only [apply_ite Prod.fst]
      by_cases hprune : (∑ i ∈ Finset.range K, (Function.update off d (|q d - v|) i) ^ 2) ≤
          ((pts r).map (fun pr => f q pr.1)).foldr min bd
      · rw [if_pos hprune, hresF _ _]
        rw [if_lt_eq_left (foldr_min_le_init _ _)]
        rw [foldr_min_append_swap]
        exact foldr_min_perm List.perm_append_comm bd
      · rw [if_neg hprune]
        rw [foldr_min_perm (@List.perm_append_comm _
          ((pts l).map (fun pr => f q pr.1))
          ((pts r).map (fun pr => f q pr.1))) bd]
        rw [← foldr_min_append_swap]
        refine (foldr_min_stable _ _ ?_).symm
        intro y hy
        rcases List.mem_map.mp hy with ⟨pr, hpr, rfl⟩
        have hge := hD pr (List.mem_append_left _ hpr) _ (hFbound pr hpr)
        omega


/-- COUNTEREXAMPLE for C1.  With K = 1, B = 2, Manhattan distance and
unnormalised (integer-scaled) coordinates, the squared-offset pruning bound
is not admissible: after adding points 4, 15, 2 the tree is a stem with split
value 15; querying point 10 explores the left leaf (best distance 6), computes
the pruning bound 25 for the right subtree and skips it, missing the true
nearest point 15 at Manhattan distance 5.  `nearest_one` returns 6 while the
exhaustive linear scan minimum is 5. -/
theorem nearest_one_manhattan_counterexample :
    ¬ ((nearestOne 1 1000 (cpt 10) (manhattanD 1)
        (runOps 1 2 [.addOp (cpt 4) 0, .addOp (cpt 15) 1, .addOp (cpt 2) 2]).root).1 =
      ((pts (runOps 1 2 [.addOp (cpt 4) 0, .addOp (cpt 15) 1,
          .addOp (cpt 2) 2]).root).map
        (fun pr => manhattanD 1 (cpt 10) pr.1)).foldr min 1000) ∧
    (nearestOne 1 1000 (cpt 10) (manhattanD 1)
      (runOps 1 2 [.addOp (cpt 4) 0, .addOp (cpt 15) 1, .addOp (cpt 2) 2]).root).1 = 6 ∧
    ((pts (runOps 1 2 [.addOp (cpt 4) 0, .addOp (cpt 15) 1,
        .addOp (cpt 2) 2]).root).map
      (fun pr => manhattanD 1 (cpt 10) pr.1)).foldr min 1000 = 5 := by
  decide

/-- CLAIM C1 (amended).  For every tree built by any sequence of add/remove
operations (K ≥ 1, B ≥ 1) and every query point, when the distance function
satisfies the §6 admissibility contract relative to the squared-offset
pruning bound on the stored points — which squared Euclidean distance does
for all inputs, but Manhattan distance does not in general (see the
counterexample) — `nearest_one` returns a distance equal to the minimum of
the distances to all stored points, folded with the sentinel start `A::MAX`
exactly as an exhaustive linear scan would compute it. -/
theorem nearest_one_linear_scan_min (K B : ℕ) (ops : List Op) (q : Pt)
    (f : Pt → Pt → ℤ) (AMAX : ℤ) (hK : 0 < K) (hB : 1 ≤ B)
    (hf : DomBound K q f (pts (runOps K B ops).root)) :
    (nearestOne K AMAX q f (runOps K B ops).root).1 =
      ((pts (runOps K B ops).root).map (fun pr => f q pr.1)).foldr min AMAX := by
  have hWF := runOps_WF K B hK hB ops
  have hC : Compat K q (fun _ => 0) topBox := by
    intro i _
    exact ⟨le_refl 0, fun x _ => abs_nonneg _⟩
  have hrd : (0:ℤ) = ∑ i ∈ Finset.range K, ((fun _ => (0:ℤ)) i) ^ 2 := by simp
  exact nearestOneRecurse_min K hK q f _ topBox 0 hK hWF _ _ hC hrd hf 0 AMAX

/-- Witness for the amended C1 with squared Euclidean distance on the
counterexample tree: the query for point 10 returns distance 25, equal to the
linear-scan minimum. -/
theorem nearest_one_linear_scan_min_witness :
    0 < 1 ∧ 1 ≤ 2 ∧
    (nearestOne 1 1000 (cpt 10) (sqEuclidD 1)
        (runOps 1 2 [.addOp (cpt 4) 0, .addOp (cpt 15) 1, .addOp (cpt 2) 2]).root).1 =
      ((pts (runOps 1 2 [.addOp (cpt 4) 0, .addOp (cpt 15) 1,
          .addOp (cpt 2) 2]).root).map
        (fun pr => sqEuclidD 1 (cpt 10) pr.1)).foldr min 1000 :=
  ⟨by decide, by decide,
    nearest_one_linear_scan_min 1 2 [.addOp (cpt 4) 0, .addOp (cpt 15) 1,
      .addOp (cpt 2) 2] (cpt 10) (sqEuclidD 1) 1000 (by decide) (by decide)
      (sqEuclid_domBound 1 (cpt 10) _)⟩


/-! ### Sorted top-k toolkit for nearest_n (C2) -/

lemma sortD_sorted (l : List ℤ) : List.Sorted (· ≤ ·) (sortD l) :=
  List.sorted_insertionSort _ _

lemma sortD_perm (l : List ℤ) : (sortD l).Perm l := List.perm_insertionSort _ _

lemma sortD_eq_of_perm_sorted {t l : List ℤ} (hp : t.Perm l)
    (hs : List.Sorted (· ≤ ·) t) : t = sortD l :=
  List.eq_of_perm_of_sorted (hp.trans (sortD_perm l).symm) hs (sortD_sorted l)

lemma sortD_congr_perm {l1 l2 : List ℤ} (h : l1.Perm l2) : sortD l1 = sortD l2 :=
  sortD_eq_of_perm_sorted ((sortD_perm l1).trans h) (sortD_sorted l1)

lemma sortD_append_singleton (S : List ℤ) (x : ℤ) :
    sortD (S ++ [x]) = List.orderedInsert (· ≤ ·) x (sortD S) := by
  refine (sortD_eq_of_perm_sorted ?_ ?_).symm
  · refine (List.perm_orderedInsert _ _ _).trans ?_
    refine List.Perm.trans ?_ (List.perm_append_singleton x S).symm
    exact (sortD_perm S).cons x
  · exact (sortD_sorted S).orderedInsert x _

lemma sortD_length (l : List ℤ) : (sortD l).length = l.length :=
  (sortD_perm l).length_eq

lemma sorted_getD_mono {s : List ℤ} (hs : List.Sorted (· ≤ ·) s) {j k : ℕ}
    (hjk : j ≤ k) (hk : k < s.length) : s.getD j 0 ≤ s.getD k 0 := by
  rcases Nat.eq_or_lt_of_le hjk with rfl | hlt
  · exact le_refl _
  · rw [List.getD_eq_getElem _ _ (lt_trans hlt hk), List.getD_eq_getElem _ _ hk]
    exact List.pairwise_iff_getElem.mp hs j k (lt_trans hlt hk) hk hlt

lemma take_eq_replicate_of_bounds (s : List ℤ) (c : ℕ) (a : ℤ) (hc : c ≤ s.length)
    (h : ∀ j, j < c → s.getD j 0 = a) : s.take c = List.replicate c a := by
  apply List.ext_getElem
  · rw [List.length_take, List.length_replicate]
    omega
  · intro j h1 h2
    rw [List.length_take] at h1
    have hj : j < c := by omega
    have hjs : j < s.length := by omega
    rw [List.getElem_take, List.getElem_replicate]
    have := h j hj
    rwa [List.getD_eq_getElem _ _ hjs] at this

lemma getD_take_self (t : List ℤ) (c : ℕ) : (t.take (c + 1)).getD c 0 = t.getD c 0 := by
  rw [List.getD_eq_getElem?_getD, List.getD_eq_getElem?_getD,
    List.getElem?_take_of_lt (Nat.lt_succ_self c)]

lemma getLastD_eq_getD (t : List ℤ) (hne : t ≠ []) :
    t.getLastD 0 = t.getD (t.length - 1) 0 := by
  cases t with
  | nil => exact absurd rfl hne
  | cons a t2 =>
    have hne2 : (a :: t2) ≠ [] := by simp
    have h1 : (a :: t2).getLastD 0 = (a :: t2).getLast hne2 := by
      simp [List.getLastD_eq_getLast?, List.getLast?_eq_getLast _ hne2]
    rw [h1, List.getLast_eq_getElem, List.getD_eq_getElem]

/-- Inserting a candidate strictly below the current k-th smallest pushes the
old k-th smallest out of the top k. -/
lemma take_orderedInsert_lt :
    ∀ (s : List ℤ), List.Sorted (· ≤ ·) s → ∀ (c : ℕ), c + 1 ≤ s.length →
      ∀ x : ℤ, x < s.getD c 0 →
        (List.orderedInsert (· ≤ ·) x s).take (c + 1) =
          List.orderedInsert (· ≤ ·) x (s.take c) := by
  intro s
  induction s with
  | nil => intro _ c hc x _; simp at hc
  | cons a s2 ih =>
    intro hs c hc x hx
    by_cases hxa : x ≤ a
    · rw [List.orderedInsert, if_pos hxa, List.take_succ_cons]
      cases c with
      | zero => simp [List.orderedInsert]
      | succ c2 =>
        rw [List.take_succ_cons, List.orderedInsert, if_pos hxa]
    · rw [List.orderedInsert, if_neg hxa, List.take_succ_cons]
      cases c with
      | zero =>
        rw [List.getD_cons_zero] at hx
        omega
      | succ c2 =>
        rw [List.take_succ_cons, List.orderedInsert, if_neg hxa]
        congr 1
        refine ih hs.of_cons c2 (by simpa using hc) x ?_
        rwa [List.getD_cons_succ] at hx

/-- Inserting a candidate at or above the current k-th smallest leaves the
top k unchanged. -/
lemma take_orderedInsert_ge :
    ∀ (s : List ℤ), List.Sorted (· ≤ ·) s → ∀ (c : ℕ), c + 1 ≤ s.length →
      ∀ x : ℤ, s.getD c 0 ≤ x →
        (List.orderedInsert (· ≤ ·) x s).take (c + 1) = s.take (c + 1) := by
  intro s
  induction s with
  | nil => intro _ c hc x _; simp at hc
  | cons a s2 ih =>
    intro hs c hc x hx
    by_cases hxa : x ≤ a
    · have ha0 : (a :: s2).getD 0 0 = a := List.getD_cons_zero
      have hmono : (a :: s2).getD 0 0 ≤ (a :: s2).getD c 0 :=
        sorted_getD_mono hs (Nat.zero_le c) (by omega)
      have hxeqa : x = a := le_antisymm hxa (by omega)
      have hgc : (a :: s2).getD c 0 = a := le_antisymm (by omega) (by omega)
      have hbounds : ∀ j, j < c + 1 → (a :: s2).getD j 0 = a := by
        intro j hj
        have h1 : (a :: s2).getD 0 0 ≤ (a :: s2).getD j 0 :=
          sorted_getD_mono hs (Nat.zero_le j) (by omega)
        have h2 : (a :: s2).getD j 0 ≤ (a :: s2).getD c 0 :=
          sorted_getD_mono hs (by omega) (by omega)
        omega
      rw [List.orderedInsert, if_pos hxa]
      have hrep : (a :: s2).take (c + 1) = List.replicate (c + 1) a :=
        take_eq_replicate_of_bounds _ _ _ hc hbounds
      have hbounds2 : ∀ j, j < c + 1 → (x :: a :: s2).getD j 0 = a := by
        intro j hj
        cases j with
        | zero => simpa using hxeqa
        | succ j2 =>
          rw [List.getD_cons_succ]
          exact hbounds j2 (by omega)
      have hrep2 : (x :: a :: s2).take (c + 1) = List.replicate (c + 1) a :=
        take_eq_replicate_of_bounds _ _ _
          (by simp only [List.length_cons] at hc ⊢; omega) hbounds2
      rw [hrep, hrep2]
    · rw [List.orderedInsert, if_neg hxa, List.take_succ_cons, List.take_succ_cons]
      cases c with
      | zero => simp
      | succ c2 =>
        congr 1
        refine ih hs.of_cons c2 (by simpa using hc) x ?_
        rwa [List.getD_cons_succ] at hx

/-- Appending candidates that are all at or above the current k-th smallest
does not change the top k. -/
lemma topk_append_ge :
    ∀ (ys S : List ℤ) (c : ℕ), c + 1 ≤ S.length →
      (∀ y ∈ ys, (sortD S).getD c 0 ≤ y) →
      (sortD (S ++ ys)).take (c + 1) = (sortD S).take (c + 1) := by
  intro ys
  induction ys with
  | nil => intro S c _ _; simp
  | cons y ys ih =>
    intro S c hc hys
    have hclen : c + 1 ≤ (sortD S).length := by rw [sortD_length]; omega
    have h1 : (sortD (S ++ [y])).take (c + 1) = (sortD S).take (c + 1) := by
      rw [sortD_append_singleton]
      exact take_orderedInsert_ge _ (sortD_sorted S) c hclen y (hys y (by simp))
    have hgd : (sortD (S ++ [y])).getD c 0 = (sortD S).getD c 0 := by
      have e := congrArg (fun t => t.getD c 0) h1
      simpa [getD_take_self] using e
    have hassoc : S ++ y :: ys = (S ++ [y]) ++ ys := by simp
    rw [hassoc]
    refine (ih (S ++ [y]) c ?_ ?_).trans h1
    · rw [List.length_append]
      omega
    · intro z hz
      rw [hgd]
      exact hys z (List.mem_cons_of_mem _ hz)


/-! ### Heap-to-distance-list bridge (C2) -/

lemma map_fst_oi (e : ℤ × ℕ) (l : List (ℤ × ℕ)) :
    (List.orderedInsert hLe e l).map Prod.fst =
      List.orderedInsert (· ≤ ·) e.1 (l.map Prod.fst) := by
  induction l with
  | nil => rfl
  | cons a t ih =>
    by_cases hle : e.1 ≤ a.1
    · have hle2 : hLe e a := hle
      rw [List.orderedInsert, if_pos hle2, List.map_cons, List.map_cons,
        List.orderedInsert, if_pos hle]
    · have hle2 : ¬ hLe e a := hle
      rw [List.orderedInsert, if_neg hle2, List.map_cons, List.map_cons,
        List.orderedInsert, if_neg hle, ih]

lemma map_fst_hPush (e : ℤ × ℕ) (h : Heap) :
    (hPush e h).map Prod.fst = List.orderedInsert (· ≤ ·) e.1 (h.map Prod.fst) :=
  map_fst_oi e h

lemma map_fst_hReplaceMax (cap : ℕ) (e : ℤ × ℕ) (h : Heap) :
    (hReplaceMax cap e h).map Prod.fst =
      (List.orderedInsert (· ≤ ·) e.1 ((h.map Prod.fst).dropLast)).take cap := by
  unfold hReplaceMax
  rw [List.map_take, map_fst_oi, List.map_dropLast]

lemma hMax_eq_map_fst (h : Heap) : hMax h = (h.map Prod.fst).getLastD 0 := by
  suffices hgen : ∀ (l : Heap) (e : ℤ × ℕ), (l.getLastD e).1 = (l.map Prod.fst).getLastD e.1 by
    exact hgen h (0, 0)
  intro l
  induction l with
  | nil => intro e; rfl
  | cons a t ih =>
    intro e
    rw [List.getLastD_cons, List.map_cons, List.getLastD_cons, ih a]

lemma hBelongs_true_iff (cap : ℕ) (x : ℤ) (h : Heap) :
    hBelongs cap x h = true ↔ (h = [] ∨ x < hMax h ∨ h.length < cap) := by
  simp [hBelongs, or_assoc]

lemma hMax_of_inv (h : Heap) (S : List ℤ) (cap : ℕ)
    (hinv : h.map Prod.fst = (sortD S).take cap)
    (hcap : 1 ≤ cap) (hSc : cap ≤ S.length) :
    hMax h = (sortD S).getD (cap - 1) 0 := by
  obtain ⟨c2, rfl⟩ : ∃ c2, cap = c2 + 1 := ⟨cap - 1, by omega⟩
  have hslen : c2 + 1 ≤ (sortD S).length := by rw [sortD_length]; omega
  have hlen : (h.map Prod.fst).length = c2 + 1 := by
    rw [hinv, List.length_take]
    omega
  have hne : h.map Prod.fst ≠ [] := by
    intro he
    rw [he] at hlen
    simp at hlen
  rw [hMax_eq_map_fst, getLastD_eq_getD _ hne, hlen, hinv]
  simp only [Nat.add_sub_cancel]
  exact getD_take_self _ _

/-- One leaf-scan step keeps the heap's distances equal to the top `cap` of
the candidate distances seen so far. -/
lemma leafStep_topk (cap : ℕ) (hcap : 1 ≤ cap) (q : Pt) (f : Pt → Pt → ℤ)
    (h : Heap) (S : List ℤ) (hinv : h.map Prod.fst = (sortD S).take cap)
    (pr : Pair) :
    (leafStep cap q f h pr).map Prod.fst = (sortD (S ++ [f q pr.1])).take cap := by
  have hlenh : h.length = min cap S.length := by
    have e := congrArg List.length hinv
    simpa [sortD_length] using e
  by_cases hfull : h.length < cap
  · have hSlen : S.length < cap := by omega
    have hbel : hBelongs cap (f q pr.1) h = true := by
      rw [hBelongs_true_iff]
      right; right
      exact hfull
    simp only [leafStep, if_pos hbel, if_pos hfull]
    rw [map_fst_hPush, hinv]
    have htk1 : (sortD S).take cap = sortD S :=
      List.take_of_length_le (by rw [sortD_length]; omega)
    rw [htk1, ← sortD_append_singleton]
    refine (List.take_of_length_le ?_).symm
    rw [sortD_length, List.length_append]
    simp
    omega
  · have hlen2 : h.length = cap := by omega
    have hSc : cap ≤ S.length := by omega
    have hmaxeq : hMax h = (sortD S).getD (cap - 1) 0 := hMax_of_inv h S cap hinv hcap hSc
    have hc : cap - 1 + 1 = cap := by omega
    have hslen : cap ≤ (sortD S).length := by rw [sortD_length]; omega
    by_cases hlt : f q pr.1 < hMax h
    · have hbel : hBelongs cap (f q pr.1) h = true := by
        rw [hBelongs_true_iff]
        right; left
        exact hlt
      simp only [leafStep, if_pos hbel, if_neg hfull]
      rw [map_fst_hReplaceMax, hinv]
      have hdl : ((sortD S).take cap).dropLast = (sortD S).take (cap - 1) := by
        rw [List.dropLast_eq_take, List.length_take, List.take_take]
        congr 1
        omega
      rw [hdl, sortD_append_singleton]
      have hlem := take_orderedInsert_lt (sortD S) (sortD_sorted S) (cap - 1)
        (by omega) (f q pr.1) (by rw [← hmaxeq]; exact hlt)
      rw [hc] at hlem
      have hlenoi : (List.orderedInsert (· ≤ ·) (f q pr.1)
          ((sortD S).take (cap - 1))).length = cap := by
        rw [(List.perm_orderedInsert _ _ _).length_eq, List.length_cons, List.length_take]
        omega
      rw [List.take_of_length_le (le_of_eq hlenoi), ← hlem]
    · have hbel : hBelongs cap (f q pr.1) h = false := by
        have hnot : ¬ (hBelongs cap (f q pr.1) h = true) := by
          rw [hBelongs_true_iff]
          push_neg
          refine ⟨?_, le_of_not_lt hlt, by omega⟩
          intro he
          rw [he] at hlen2
          simp at hlen2
          omega
        exact Bool.not_eq_true _ ▸ eq_false_of_ne_true hnot
      simp only [leafStep, hbel, Bool.false_eq_true, if_false]
      rw [hinv, sortD_append_singleton]
      have hlem := take_orderedInsert_ge (sortD S) (sortD_sorted S) (cap - 1)
        (by omega) (f q pr.1) (by rw [← hmaxeq]; exact le_of_not_lt hlt)
      rw [hc] at hlem
      rw [hlem]


/-- Inserting an element never increases the k-th smallest. -/
lemma getD_orderedInsert_le :
    ∀ (s : List ℤ), List.Sorted (· ≤ ·) s → ∀ (c : ℕ), c < s.length → ∀ x : ℤ,
      (List.orderedInsert (· ≤ ·) x s).getD c 0 ≤ s.getD c 0 := by
  intro s
  induction s with
  | nil => intro _ c hc; simp at hc
  | cons a s2 ih =>
    intro hs c hc x
    by_cases hxa : x ≤ a
    · rw [List.orderedInsert, if_pos hxa]
      cases c with
      | zero => simpa using hxa
      | succ c2 =>
        rw [List.getD_cons_succ]
        exact sorted_getD_mono hs (Nat.le_succ c2) hc
    · rw [List.orderedInsert, if_neg hxa]
      cases c with
      | zero => simp
      | succ c2 =>
        rw [List.getD_cons_succ, List.getD_cons_succ]
        exact ih hs.of_cons c2 (by simpa using hc) x

/-- Appending candidates never increases the k-th smallest. -/
lemma sortD_getD_anti :
    ∀ (T S : List ℤ) (c : ℕ), c < S.length →
      (sortD (S ++ T)).getD c 0 ≤ (sortD S).getD c 0 := by
  intro T
  induction T with
  | nil => intro S c _; simp
  | cons x T2 ih =>
    intro S c hc
    have h1 : S ++ x :: T2 = (S ++ [x]) ++ T2 := by simp
    rw [h1]
    refine le_trans (ih (S ++ [x]) c (by rw [List.length_append]; omega)) ?_
    rw [sortD_append_singleton]
    exact getD_orderedInsert_le (sortD S) (sortD_sorted S) c
      (by rw [sortD_length]; omega) x

/-- A subtree skipped because its bound does not belong in the (full) heap
contributes nothing to the top k, even after later candidates are added. -/
lemma skip_late (cap : ℕ) (hcap : 1 ≤ cap) (h : Heap) (S : List ℤ)
    (hinv : h.map Prod.fst = (sortD S).take cap)
    (c0 : ℤ) (hbel : hBelongs cap c0 h = false)
    (ys : List ℤ) (hys : ∀ y ∈ ys, c0 ≤ y) (T : List ℤ) :
    (sortD ((S ++ T) ++ ys)).take cap = (sortD (S ++ T)).take cap := by
  have hnot : ¬ (h = [] ∨ c0 < hMax h ∨ h.length < cap) := by
    rw [← hBelongs_true_iff]
    simp [hbel]
  push_neg at hnot
  obtain ⟨hne, hmaxle, hfull⟩ := hnot
  have hlenh : h.length = min cap S.length := by
    have e := congrArg List.length hinv
    simpa [sortD_length] using e
  have hSc : cap ≤ S.length := by omega
  have hmaxeq : hMax h = (sortD S).getD (cap - 1) 0 := hMax_of_inv h S cap hinv hcap hSc
  obtain ⟨c2, rfl⟩ : ∃ c2, cap = c2 + 1 := ⟨cap - 1, by omega⟩
  simp only [Nat.add_sub_cancel] at hmaxeq
  refine topk_append_ge ys (S ++ T) c2 (by rw [List.length_append]; omega) ?_
  intro y hy
  refine le_trans (sortD_getD_anti T S c2 (by omega)) ?_
  rw [← hmaxeq]
  exact le_trans hmaxle (hys y hy)

/-- The nearest_n recursion keeps the heap's distances equal to the smallest
`cap` of the distances of all candidates so far (the incoming multiset plus
every stored point of the visited subtree); an admissible
`child_dist_to_bounds` justifies every skipped subtree. -/
lemma nearestNRecurse_topk (K cap : ℕ) (hcap : 1 ≤ cap) (q : Pt)
    (f : Pt → Pt → ℤ) (cdb : KdNode → ℤ)
    (hcdb : ∀ sub : KdNode, ∀ pr ∈ pts sub, cdb sub ≤ f q pr.1) :
    ∀ (t : KdNode) (d : ℕ) (h : Heap) (S : List ℤ),
      h.map Prod.fst = (sortD S).take cap →
      (nearestNRecurse K cap q f cdb t d h).map Prod.fst =
        (sortD (S ++ (pts t).map (fun pr => f q pr.1))).take cap := by
  intro t
  induction t with
  | leaf c =>
    intro d h S hinv
    simp only [nearestNRecurse, pts_leaf]
    induction c generalizing h S with
    | nil => simpa using hinv
    | cons pr rest ihc =>
      rw [List.foldl_cons, List.map_cons]
      have hstep := leafStep_topk cap hcap q f h S hinv pr
      have hrec := ihc (leafStep cap q f h pr) (S ++ [f q pr.1]) hstep
      rw [hrec, List.append_assoc]
      rfl
  | stem v l r ihl ihr =>
    intro d h S hinv
    have hdl : ∀ y ∈ (pts l).map (fun pr => f q pr.1), cdb l ≤ y := by
      intro y hy
      rcases List.mem_map.mp hy with ⟨pr, hpr, rfl⟩
      exact hcdb l pr hpr
    have hdr : ∀ y ∈ (pts r).map (fun pr => f q pr.1), cdb r ≤ y := by
      intro y hy
      rcases List.mem_map.mp hy with ⟨pr, hpr, rfl⟩
      exact hcdb r pr hpr
    by_cases hq : q d < v
    · simp only [nearestNRecurse, if_pos hq, pts_stem, List.map_append]
      by_cases hb1 : hBelongs cap (cdb l) h = true
      · rw [if_pos hb1]
        have hh1 := ihl ((d + 1) % K) h S hinv
        by_cases hb2 : hBelongs cap (cdb r)
            (nearestNRecurse K cap q f cdb l ((d + 1) % K) h) = true
        · rw [if_pos hb2]
          have hh2 := ihr ((d + 1) % K) _ (S ++ (pts l).map (fun pr => f q pr.1)) hh1
          rw [hh2, List.append_assoc]
        · rw [if_neg hb2]
          rw [hh1, ← List.append_assoc]
          have hskip := skip_late cap hcap _
            (S ++ (pts l).map (fun pr => f q pr.1)) hh1 (cdb r)
            (eq_false_of_ne_true hb2) ((pts r).map (fun pr => f q pr.1)) hdr []
          simp only [List.append_nil] at hskip
          exact hskip.symm
      · rw [if_neg hb1]
        by_cases hb2 : hBelongs cap (cdb r) h = true
        · rw [if_pos hb2]
          have hh2 := ihr ((d + 1) % K) h S hinv
          rw [hh2]
          have hperm : ((S ++ (pts r).map (fun pr => f q pr.1)) ++
              (pts l).map (fun pr => f q pr.1)).Perm
              (S ++ ((pts l).map (fun pr => f q pr.1) ++
                (pts r).map (fun pr => f q pr.1))) := by
            rw [List.append_assoc]
            exact List.Perm.append_left S List.perm_append_comm
          have hskip := skip_late cap hcap h S hinv (cdb l)
            (eq_false_of_ne_true hb1) ((pts l).map (fun pr => f q pr.1)) hdl
            ((pts r).map (fun pr => f q pr.1))
          rw [← sortD_congr_perm hperm, hskip]
        · rw [if_neg hb2]
          rw [hinv]
          have hskip1 := skip_late cap hcap h S hinv (cdb r)
            (eq_false_of_ne_true hb2) ((pts r).map (fun pr => f q pr.1)) hdr
            ((pts l).map (fun pr => f q pr.1))
          have hskip2 := skip_late cap hcap h S hinv (cdb l)
            (eq_false_of_ne_true hb1) ((pts l).map (fun pr => f q pr.1)) hdl []
          rw [← List.append_assoc, hskip1]
          simp only [List.append_nil] at hskip2
          rw [hskip2]
    · simp only [nearestNRecurse, if_neg hq, pts_stem, List.map_append]
      by_cases hb1 : hBelongs cap (cdb r) h = true
      · rw [if_pos hb1]
        have hh1 := ihr ((d + 1) % K) h S hinv
        by_cases hb2 : hBelongs cap (cdb l)
            (nearestNRecurse K cap q f cdb r ((d + 1) % K) h) = true
        · rw [if_pos hb2]
          have hh2 := ihl ((d + 1) % K) _ (S ++ (pts r).map (fun pr => f q pr.1)) hh1
          rw [hh2]
          refine congrArg (fun u => List.take cap u) (sortD_congr_perm ?_)
          rw [List.append_assoc]
          exact List.Perm.append_left S List.perm_append_comm
        · rw [if_neg hb2]
          rw [hh1]
          have hskip := skip_late cap hcap _
            (S ++ (pts r).map (fun pr => f q pr.1)) hh1 (cdb l)
            (eq_false_of_ne_true hb2) ((pts l).map (fun pr => f q pr.1)) hdl []
          simp only [List.append_nil] at hskip
          have hperm : ((S ++ (pts r).map (fun pr => f q pr.1)) ++
              (pts l).map (fun pr => f q pr.1)).Perm
              (S ++ ((pts l).map (fun pr => f q pr.1) ++
                (pts r).map (fun pr => f q pr.1))) := by
            rw [List.append_assoc]
            exact List.Perm.append_left S List.perm_append_comm
          rw [← sortD_congr_perm hperm, hskip]
      · rw [if_neg hb1]
        by_cases hb2 : hBelongs cap (cdb l) h = true
        · rw [if_pos hb2]
          have hh2 := ihl ((d + 1) % K) h S hinv
          rw [hh2]
          have hskip := skip_late cap hcap h S hinv (cdb r)
            (eq_false_of_ne_true hb1) ((pts r).map (fun pr => f q pr.1)) hdr
            ((pts l).map (fun pr => f q pr.1))
          rw [← List.append_assoc, hskip]
        · rw [if_neg hb2]
          rw [hinv]
          have hskipR := skip_late cap hcap h S hinv (cdb r)
            (eq_false_of_ne_true hb1) ((pts r).map (fun pr => f q pr.1)) hdr
            ((pts l).map (fun pr => f q pr.1))
          have hskipL := skip_late cap hcap h S hinv (cdb l)
            (eq_false_of_ne_true hb2) ((pts l).map (fun pr => f q pr.1)) hdl []
          simp only [List.append_nil] at hskipL
          rw [← List.append_assoc, hskipR, hskipL]


/-- Manhattan distance is non-negative: the constant-zero bound is an
admissible `child_dist_to_bounds`. -/
lemma manhattanD_nonneg (K : ℕ) (q p : Pt) : 0 ≤ manhattanD K q p :=
  Finset.sum_nonneg fun _ _ => abs_nonneg _

/-- CLAIM C2.  For every tree, every query point and every qty = k ≥ 1, with
an admissible `child_dist_to_bounds` (never exceeding the distance from the
query to any stored point of the subtree, per §4.6), the collected output of
`nearest_n(q, k, dist_fn)` carries exactly the k smallest distances of the
exhaustive linear scan (all stored distances when fewer than k), yielded in
ascending order: its distance list equals the first k entries of the
ascending sort of all stored distances and is itself sorted. -/
theorem nearest_n_topk (K : ℕ) (q : Pt) (k : ℕ) (hk : 1 ≤ k) (f : Pt → Pt → ℤ)
    (cdb : KdNode → ℤ) (t : KdNode)
    (hcdb : ∀ sub : KdNode, ∀ pr ∈ pts sub, cdb sub ≤ f q pr.1) :
    (nearestN K q k f cdb t).map Prod.fst =
      (sortD ((pts t).map (fun pr => f q pr.1))).take k ∧
    List.Sorted (· ≤ ·) ((nearestN K q k f cdb t).map Prod.fst) := by
  have h1 := nearestNRecurse_topk K k hk q f cdb hcdb t 0 [] [] (by simp [sortD])
  simp only [List.nil_append] at h1
  simp only [nearestN]
  refine ⟨h1, ?_⟩
  rw [h1]
  exact List.Pairwise.sublist (List.take_sublist _ _) (sortD_sorted _)

/-- Witness for C2: the three-point tree of the C1 counterexample queried for
its 2 nearest neighbours under Manhattan distance with the trivially
admissible constant-zero bound; the collected distances are the two smallest
of the linear scan, in ascending order. -/
theorem nearest_n_topk_witness :
    1 ≤ 2 ∧
    ((nearestN 1 (cpt 10) 2 (manhattanD 1) (fun _ => 0)
        (runOps 1 2 [.addOp (cpt 4) 0, .addOp (cpt 15) 1,
          .addOp (cpt 2) 2]).root).map Prod.fst =
      (sortD ((pts (runOps 1 2 [.addOp (cpt 4) 0, .addOp (cpt 15) 1,
          .addOp (cpt 2) 2]).root).map
        (fun pr => manhattanD 1 (cpt 10) pr.1))).take 2 ∧
    List.Sorted (· ≤ ·) ((nearestN 1 (cpt 10) 2 (manhattanD 1) (fun _ => 0)
        (runOps 1 2 [.addOp (cpt 4) 0, .addOp (cpt 15) 1,
          .addOp (cpt 2) 2]).root).map Prod.fst)) :=
  ⟨by decide,
    nearest_n_topk 1 (cpt 10) 2 (by decide) (manhattanD 1) (fun _ => 0)
      (runOps 1 2 [.addOp (cpt 4) 0, .addOp (cpt 15) 1, .addOp (cpt 2) 2]).root
      (fun _ pr _ => manhattanD_nonneg 1 (cpt 10) pr.1)⟩

end Kiddo
